import Mathlib

/-!
Shallow embedding of the `unicase_collections` library: case-insensitive
map/set adapters (`UniCaseIndexMap`, `UniCaseIndexSet`, `UniCaseBTreeSet`)
over canonical keys (`UniCase<String>`), plus the spec-described ordered map
sibling.  The Unicode case-folding primitive is external to the library, so
every definition is parameterized by an arbitrary `fold : String → String`;
two keys are equal exactly when their folded texts coincide (src/src/key.rs,
the `UniCase` equality contract).

The insertion-ordered adapters are backed by `indexmap`, whose `remove` and
`remove_entry` are swap removals: the last entry is moved into the removed
slot.  The embedding reproduces that behaviour positionally.
-/

namespace UnicaseCollections

/-- A canonical key: `UniCase<String>` stores the original text verbatim;
comparison goes through the folded form (src/src/key.rs). -/
structure Key where
  text : String
deriving DecidableEq

/-- Key equality under the folding primitive: two `UniCase` values are equal
iff their case-folded texts are equal. -/
def keyEqv (fold : String → String) (a b : Key) : Bool :=
  fold a.text == fold b.text

/-- Key ordering under the folding primitive: `UniCase`'s `Ord` compares the
folded texts lexicographically. -/
def keyLt (fold : String → String) (a b : Key) : Bool :=
  decide (fold a.text < fold b.text)

/-- ASCII lower-casing of one character, written with plain arithmetic so
that closed instances evaluate inside the kernel. -/
def lowerChar (c : Char) : Char :=
  if 65 ≤ c.toNat ∧ c.toNat ≤ 90 then Char.ofNat (c.toNat + 32) else c

/-- A concrete instance of the external folding primitive used for closed
evaluations: ASCII simple case folding, character by character. -/
def asciiFold (s : String) : String :=
  ⟨s.data.map lowerChar⟩

/-- Swap removal at position `i`, as performed by `indexmap`'s `swap_remove`:
the last element is moved into slot `i` and the length shrinks by one. -/
def swapRemoveAt {α : Type} (l : List α) (i : Nat) : List α :=
  match l.getLast? with
  | none => l
  | some a => (l.set i a).dropLast

/-- Position of the first element satisfying `p` (the slot `indexmap`
locates before a swap removal). -/
def findIdxP {α : Type} (p : α → Bool) : List α → Option Nat
  | [] => none
  | a :: rest =>
    if p a then some 0
    else (findIdxP p rest).map (· + 1)

/-- Index of the first entry whose key folds like `k`. -/
def findEntryIdx {V : Type} (fold : String → String) (k : Key)
    (l : List (Key × V)) : Option Nat :=
  findIdxP (fun e => keyEqv fold e.1 k) l

/-- Insertion into the entry list with `indexmap` semantics: if a key with the
same folded form is present, its value is replaced in place and the stored key
and its position are kept; otherwise the new pair is appended at the end.
Returns the previous value alongside the new list. -/
def insertEntries {V : Type} (fold : String → String) :
    List (Key × V) → Key → V → Option V × List (Key × V)
  | [], k, v => (none, [(k, v)])
  | e :: rest, k, v =>
    if keyEqv fold e.1 k then (some e.2, (e.1, v) :: rest)
    else
      let r := insertEntries fold rest k v
      (r.1, e :: r.2)

/-- The insertion-ordered map adapter (src/src/unicase_index_map.rs): an
`IndexMap<UniCase<String>, V>` modelled as its entry list in iteration
order. -/
structure UniCaseIndexMap (V : Type) where
  entries : List (Key × V)
deriving DecidableEq

namespace UniCaseIndexMap

variable {V : Type}

/-- `UniCaseIndexMap::new` — the empty map. -/
def new : UniCaseIndexMap V := ⟨[]⟩

/-- `UniCaseIndexMap::clear`. -/
def clear (_m : UniCaseIndexMap V) : UniCaseIndexMap V := ⟨[]⟩

/-- `UniCaseIndexMap::len`. -/
def len (m : UniCaseIndexMap V) : Nat := m.entries.length

/-- `UniCaseIndexMap::is_empty`. -/
def is_empty (m : UniCaseIndexMap V) : Bool := m.entries.isEmpty

/-- `UniCaseIndexMap::contains_key` after the key conversion `k.into()`. -/
def contains_key (fold : String → String) (m : UniCaseIndexMap V) (k : Key) :
    Bool :=
  m.entries.any fun e => keyEqv fold e.1 k

/-- `UniCaseIndexMap::get_key_value`. -/
def get_key_value (fold : String → String) (m : UniCaseIndexMap V) (k : Key) :
    Option (Key × V) :=
  m.entries.find? fun e => keyEqv fold e.1 k

/-- `UniCaseIndexMap::get`. -/
def get (fold : String → String) (m : UniCaseIndexMap V) (k : Key) :
    Option V :=
  (m.get_key_value fold k).map (·.2)

/-- `UniCaseIndexMap::insert`: delegates to `IndexMap::insert`. -/
def insert (fold : String → String) (m : UniCaseIndexMap V) (k : Key) (v : V) :
    Option V × UniCaseIndexMap V :=
  let r := insertEntries fold m.entries k v
  (r.1, ⟨r.2⟩)

/-- `UniCaseIndexMap::remove_entry`: `IndexMap::remove_entry` is a swap
removal returning the stored key and value. -/
def remove_entry (fold : String → String) (m : UniCaseIndexMap V) (k : Key) :
    Option (Key × V) × UniCaseIndexMap V :=
  match findEntryIdx fold k m.entries with
  | some i =>
    match m.entries[i]? with
    | some e => (some e, ⟨swapRemoveAt m.entries i⟩)
    | none => (none, m)
  | none => (none, m)

/-- `UniCaseIndexMap::remove`: `IndexMap::remove` is a swap removal returning
the stored value. -/
def remove (fold : String → String) (m : UniCaseIndexMap V) (k : Key) :
    Option V × UniCaseIndexMap V :=
  let r := m.remove_entry fold k
  (r.1.map (·.2), r.2)

/-- `UniCaseIndexMap::retain`: `IndexMap::retain` keeps the surviving entries
in their relative order. -/
def retain (p : Key → V → Bool) (m : UniCaseIndexMap V) : UniCaseIndexMap V :=
  ⟨m.entries.filter fun e => p e.1 e.2⟩

/-- The state effect of `UniCaseIndexMap::entry(k).or_insert(v)`: a vacant
entry is created at the end, an occupied entry is left in place. -/
def entry_or_insert (fold : String → String) (m : UniCaseIndexMap V) (k : Key)
    (v : V) : UniCaseIndexMap V :=
  if m.contains_key fold k then m else ⟨m.entries ++ [(k, v)]⟩

/-- `Extend for UniCaseIndexMap`: each pair is key-converted and inserted in
sequence (`IndexMap::extend`). -/
def extend (fold : String → String) (m : UniCaseIndexMap V)
    (l : List (Key × V)) : UniCaseIndexMap V :=
  l.foldl (fun acc e => (acc.insert fold e.1 e.2).2) m

/-- `FromIterator for UniCaseIndexMap`: `extend` starting from the empty
map. -/
def from_iter (fold : String → String) (l : List (Key × V)) :
    UniCaseIndexMap V :=
  extend fold new l

/-- `UniCaseIndexMap::keys`. -/
def keys (m : UniCaseIndexMap V) : List Key := m.entries.map (·.1)

/-- `Index for UniCaseIndexMap`: delegates to `IndexMap::index`, which panics
when the key is absent; the panic is modelled as `Except.error`. -/
def index (fold : String → String) (m : UniCaseIndexMap V) (k : Key) :
    Except String V :=
  match m.get fold k with
  | some v => Except.ok v
  | none => Except.error "key not found"

/-- `PartialEq for UniCaseIndexMap`: equal lengths and every entry of the
left map found by canonical key in the right map with an equal value. -/
def eqAdapter [DecidableEq V] (fold : String → String)
    (m other : UniCaseIndexMap V) : Bool :=
  m.len == other.len &&
    m.entries.all fun e => other.get fold e.1 == some e.2

end UniCaseIndexMap

/-- Index of the first key that folds like `k` in a plain key list. -/
def findKeyIdx (fold : String → String) (k : Key) (l : List Key) :
    Option Nat :=
  findIdxP (fun k0 => keyEqv fold k0 k) l

/-- The insertion-ordered set adapter (src/src/unicase_index_set.rs): an
`IndexSet<UniCase<String>>` modelled as its key list in iteration order. -/
structure UniCaseIndexSet where
  entries : List Key
deriving DecidableEq

namespace UniCaseIndexSet

/-- `UniCaseIndexSet::new` — the empty set. -/
def new : UniCaseIndexSet := ⟨[]⟩

/-- `UniCaseIndexSet::clear`. -/
def clear (_s : UniCaseIndexSet) : UniCaseIndexSet := ⟨[]⟩

/-- `UniCaseIndexSet::len`. -/
def len (s : UniCaseIndexSet) : Nat := s.entries.length

/-- `UniCaseIndexSet::is_empty`. -/
def is_empty (s : UniCaseIndexSet) : Bool := s.entries.isEmpty

/-- `UniCaseIndexSet::contains`. -/
def contains (fold : String → String) (s : UniCaseIndexSet) (k : Key) : Bool :=
  s.entries.any fun k0 => keyEqv fold k0 k

/-- `UniCaseIndexSet::get` — returns the stored canonical key. -/
def get (fold : String → String) (s : UniCaseIndexSet) (k : Key) :
    Option Key :=
  s.entries.find? fun k0 => keyEqv fold k0 k

/-- `UniCaseIndexSet::insert`: `IndexSet::insert` appends a new key at the
end; an already-present equal key is kept untouched and `false` returned. -/
def insert (fold : String → String) (s : UniCaseIndexSet) (k : Key) :
    Bool × UniCaseIndexSet :=
  if s.contains fold k then (false, s) else (true, ⟨s.entries ++ [k]⟩)

/-- `UniCaseIndexSet::remove`: `IndexSet::remove` is a swap removal. -/
def remove (fold : String → String) (s : UniCaseIndexSet) (k : Key) :
    Bool × UniCaseIndexSet :=
  match findKeyIdx fold k s.entries with
  | some i => (true, ⟨swapRemoveAt s.entries i⟩)
  | none => (false, s)

/-- `UniCaseIndexSet::retain`. -/
def retain (p : Key → Bool) (s : UniCaseIndexSet) : UniCaseIndexSet :=
  ⟨s.entries.filter p⟩

/-- `Extend for UniCaseIndexSet`: key-convert and insert in sequence. -/
def extend (fold : String → String) (s : UniCaseIndexSet) (l : List Key) :
    UniCaseIndexSet :=
  l.foldl (fun acc k => (acc.insert fold k).2) s

/-- `FromIterator for UniCaseIndexSet`. -/
def from_iter (fold : String → String) (l : List Key) : UniCaseIndexSet :=
  extend fold new l

/-- `PartialEq for UniCaseIndexSet`: equal lengths and every stored key of
the left set contained (case-insensitively) in the right set. -/
def eqAdapter (fold : String → String) (s other : UniCaseIndexSet) : Bool :=
  s.len == other.len && s.entries.all fun k => other.contains fold k

end UniCaseIndexSet

/-- `BTreeSet<UniCase<String>>` insertion: walk the keys in their order and
either place `k` before the first strictly greater key (newly inserted,
`true`), stop at an equal key without updating it (`false`), or continue. -/
def btreeInsertList (fold : String → String) :
    List Key → Key → Bool × List Key
  | [], k => (true, [k])
  | k0 :: rest, k =>
    if keyLt fold k k0 then (true, k :: k0 :: rest)
    else if keyEqv fold k0 k then (false, k0 :: rest)
    else
      let r := btreeInsertList fold rest k
      (r.1, k0 :: r.2)

/-- `BTreeSet<UniCase<String>>` removal: erase the first key equal to `k`
under folding, keeping the order of the rest; report whether one was
found. -/
def btreeRemoveList (fold : String → String) :
    List Key → Key → Bool × List Key
  | [], _ => (false, [])
  | k0 :: rest, k =>
    if keyEqv fold k0 k then (true, rest)
    else
      let r := btreeRemoveList fold rest k
      (r.1, k0 :: r.2)

/-- The ordered set adapter (src/src/unicase_btree_set.rs): a
`BTreeSet<UniCase<String>>` modelled as its key list in key order. -/
structure UniCaseBTreeSet where
  entries : List Key
deriving DecidableEq

namespace UniCaseBTreeSet

/-- `UniCaseBTreeSet::new` — the empty set. -/
def new : UniCaseBTreeSet := ⟨[]⟩

/-- `UniCaseBTreeSet::clear`. -/
def clear (_s : UniCaseBTreeSet) : UniCaseBTreeSet := ⟨[]⟩

/-- `UniCaseBTreeSet::len`. -/
def len (s : UniCaseBTreeSet) : Nat := s.entries.length

/-- `UniCaseBTreeSet::is_empty`. -/
def is_empty (s : UniCaseBTreeSet) : Bool := s.entries.isEmpty

/-- `UniCaseBTreeSet::contains` after the key conversion `k.to_key()`. -/
def contains (fold : String → String) (s : UniCaseBTreeSet) (k : Key) :
    Bool :=
  s.entries.any fun k0 => keyEqv fold k0 k

/-- `UniCaseBTreeSet::get` — returns the stored canonical key. -/
def get (fold : String → String) (s : UniCaseBTreeSet) (k : Key) :
    Option Key :=
  s.entries.find? fun k0 => keyEqv fold k0 k

/-- `UniCaseBTreeSet::insert`. -/
def insert (fold : String → String) (s : UniCaseBTreeSet) (k : Key) :
    Bool × UniCaseBTreeSet :=
  let r := btreeInsertList fold s.entries k
  (r.1, ⟨r.2⟩)

/-- `UniCaseBTreeSet::remove`. -/
def remove (fold : String → String) (s : UniCaseBTreeSet) (k : Key) :
    Bool × UniCaseBTreeSet :=
  let r := btreeRemoveList fold s.entries k
  (r.1, ⟨r.2⟩)

/-- `UniCaseBTreeSet::retain`. -/
def retain (p : Key → Bool) (s : UniCaseBTreeSet) : UniCaseBTreeSet :=
  ⟨s.entries.filter p⟩

/-- `Extend for UniCaseBTreeSet`: key-convert and insert in sequence. -/
def extend (fold : String → String) (s : UniCaseBTreeSet) (l : List Key) :
    UniCaseBTreeSet :=
  l.foldl (fun acc k => (acc.insert fold k).2) s

/-- `FromIterator for UniCaseBTreeSet`. -/
def from_iter (fold : String → String) (l : List Key) : UniCaseBTreeSet :=
  extend fold new l

/-- `PartialEq for UniCaseBTreeSet`. -/
def eqAdapter (fold : String → String) (s other : UniCaseBTreeSet) : Bool :=
  s.len == other.len && s.entries.all fun k => other.contains fold k

end UniCaseBTreeSet

/-- Modelled from the spec: the Ordered Map Adapter (spec section 2 item 6 and
section 4.3) has no file under src/ — only the benchmark harness calls
`UniCaseBTreeMap`.  Per the spec it is the map variant of the ordered set:
entries in canonical-key order, insertion keeping the existing stored key's
casing while replacing the value. -/
def btreeMapInsertList {V : Type} (fold : String → String) :
    List (Key × V) → Key → V → Option V × List (Key × V)
  | [], k, v => (none, [(k, v)])
  | e :: rest, k, v =>
    if keyLt fold k e.1 then (none, (k, v) :: e :: rest)
    else if keyEqv fold e.1 k then (some e.2, (e.1, v) :: rest)
    else
      let r := btreeMapInsertList fold rest k v
      (r.1, e :: r.2)

/-- Modelled from the spec: removal in the Ordered Map Adapter — erase the
entry whose key folds like `k`, returning its value. -/
def btreeMapRemoveList {V : Type} (fold : String → String) :
    List (Key × V) → Key → Option V × List (Key × V)
  | [], _ => (none, [])
  | e :: rest, k =>
    if keyEqv fold e.1 k then (some e.2, rest)
    else
      let r := btreeMapRemoveList fold rest k
      (r.1, e :: r.2)

/-- Modelled from the spec: the Ordered Map Adapter state — a
`BTreeMap<UniCase<String>, V>` as its entry list in key order. -/
structure UniCaseBTreeMap (V : Type) where
  entries : List (Key × V)
deriving DecidableEq

namespace UniCaseBTreeMap

variable {V : Type}

/-- Modelled from the spec: the empty ordered map. -/
def new : UniCaseBTreeMap V := ⟨[]⟩

/-- Modelled from the spec: length of the ordered map. -/
def len (m : UniCaseBTreeMap V) : Nat := m.entries.length

/-- Modelled from the spec: case-insensitive membership in the ordered
map. -/
def contains_key (fold : String → String) (m : UniCaseBTreeMap V) (k : Key) :
    Bool :=
  m.entries.any fun e => keyEqv fold e.1 k

/-- Modelled from the spec: case-insensitive lookup of the stored entry. -/
def get_key_value (fold : String → String) (m : UniCaseBTreeMap V) (k : Key) :
    Option (Key × V) :=
  m.entries.find? fun e => keyEqv fold e.1 k

/-- Modelled from the spec: case-insensitive lookup of the value. -/
def get (fold : String → String) (m : UniCaseBTreeMap V) (k : Key) :
    Option V :=
  (m.get_key_value fold k).map (·.2)

/-- Modelled from the spec: ordered-map insertion (existing stored key's
casing retained, value replaced, previous value returned). -/
def insert (fold : String → String) (m : UniCaseBTreeMap V) (k : Key) (v : V) :
    Option V × UniCaseBTreeMap V :=
  let r := btreeMapInsertList fold m.entries k v
  (r.1, ⟨r.2⟩)

/-- Modelled from the spec: ordered-map removal returning the removed
value. -/
def remove (fold : String → String) (m : UniCaseBTreeMap V) (k : Key) :
    Option V × UniCaseBTreeMap V :=
  let r := btreeMapRemoveList fold m.entries k
  (r.1, ⟨r.2⟩)

/-- Modelled from the spec: ordered-map retain. -/
def retain (p : Key → V → Bool) (m : UniCaseBTreeMap V) : UniCaseBTreeMap V :=
  ⟨m.entries.filter fun e => p e.1 e.2⟩

/-- Modelled from the spec: ordered-map equality, same shape as the other
adapters (equal cardinality, every entry found by canonical key with an
equal value). -/
def eqAdapter [DecidableEq V] (fold : String → String)
    (m other : UniCaseBTreeMap V) : Bool :=
  m.len == other.len &&
    m.entries.all fun e => other.get fold e.1 == some e.2

end UniCaseBTreeMap

/-! ### Basic facts about key equality -/

theorem keyEqv_iff {fold : String → String} {a b : Key} :
    keyEqv fold a b = true ↔ fold a.text = fold b.text := by
  simp [keyEqv]

theorem keyEqv_eq_false_iff {fold : String → String} {a b : Key} :
    keyEqv fold a b = false ↔ fold a.text ≠ fold b.text := by
  simp [keyEqv]

theorem keyEqv_symm {fold : String → String} (a b : Key) :
    keyEqv fold a b = keyEqv fold b a := by
  simp only [keyEqv]
  by_cases h : fold a.text = fold b.text
  · simp [h]
  · simp [h, Ne.symm h]

theorem keyEqv_trans_left {fold : String → String} {a b c : Key}
    (hab : keyEqv fold a b = true) :
    keyEqv fold a c = keyEqv fold b c := by
  rw [keyEqv_iff] at hab
  simp only [keyEqv, hab]

/-! ### Facts about `findIdxP` and `swapRemoveAt` -/

theorem findIdxP_eq_none_iff {α : Type} {p : α → Bool} {l : List α} :
    findIdxP p l = none ↔ ∀ a ∈ l, p a = false := by
  induction l with
  | nil => simp [findIdxP]
  | cons a rest ih =>
    by_cases ha : p a = true
    · simp [findIdxP, ha]
    · have ha' : p a = false := by simpa using ha
      simp [findIdxP, ha', ih]

theorem findIdxP_some {α : Type} {p : α → Bool} :
    ∀ {l : List α} {i : Nat}, findIdxP p l = some i →
      ∃ a, l[i]? = some a ∧ l.find? p = some a := by
  intro l
  induction l with
  | nil => intro i h; simp [findIdxP] at h
  | cons a rest ih =>
    intro i h
    by_cases ha : p a = true
    · simp only [findIdxP, ha, if_true, Option.some.injEq] at h
      subst h
      exact ⟨a, by simp, by simp [List.find?_cons_of_pos _ ha]⟩
    · have ha' : p a = false := by simpa using ha
      simp only [findIdxP, ha', Bool.false_eq_true, if_false,
        Option.map_eq_some'] at h
      obtain ⟨j, hj, rfl⟩ := h
      obtain ⟨b, hb1, hb2⟩ := ih hj
      refine ⟨b, by simpa using hb1, ?_⟩
      rw [List.find?_cons_of_neg _ (by simp [ha']), hb2]

theorem findIdxP_concat_of_absent {α : Type} {p : α → Bool} {x : α}
    (hx : p x = true) :
    ∀ {l : List α}, (∀ a ∈ l, p a = false) →
      findIdxP p (l ++ [x]) = some l.length := by
  intro l h
  induction l with
  | nil => simp [findIdxP, hx]
  | cons a rest ih =>
    have ha : p a = false := h a (List.mem_cons_self a rest)
    have hrest := ih fun b hb => h b (List.mem_cons_of_mem a hb)
    simp [findIdxP, ha, hrest]

theorem set_append_length {α : Type} (y : α) :
    ∀ (d : List α) (x : α) (t : List α),
      (d ++ x :: t).set d.length y = d ++ y :: t := by
  intro d
  induction d with
  | nil => intro x t; simp
  | cons a d ih => intro x t; simp [List.set, ih]

theorem swapRemoveAt_concat {α : Type} (l : List α) (x : α) :
    swapRemoveAt (l ++ [x]) l.length = l := by
  simp only [swapRemoveAt, List.getLast?_concat]
  rw [set_append_length x l x [], List.dropLast_concat]

theorem swapRemoveAt_perm {α : Type} :
    ∀ (l : List α) (i : Nat), i < l.length →
      (swapRemoveAt l i).Perm (l.eraseIdx i) := by
  intro l
  induction l with
  | nil => intro i hi; simp at hi
  | cons a l' ih =>
    intro i hi
    cases l' with
    | nil =>
      have h0 : i = 0 := Nat.lt_one_iff.mp (by simpa using hi)
      subst h0
      simp [swapRemoveAt, List.set]
    | cons b t =>
      have hne : (b :: t : List α) ≠ [] := by simp
      have hlast : (b :: t).getLast? = some ((b :: t).getLast hne) :=
        List.getLast?_eq_getLast _ hne
      set m := (b :: t).getLast hne with hm
      cases i with
      | zero =>
        have h1 : swapRemoveAt (a :: b :: t) 0 = m :: (b :: t).dropLast := by
          simp only [swapRemoveAt, List.getLast?_cons_cons, hlast, List.set]
          exact List.dropLast_cons₂
        rw [h1, List.eraseIdx_cons_zero]
        have h2 : (b :: t).dropLast ++ [m] = b :: t :=
          List.dropLast_concat_getLast hne
        have h3 : ((b :: t).dropLast ++ [m]).Perm (m :: (b :: t).dropLast) :=
          List.perm_append_singleton m _
        rw [h2] at h3
        exact h3.symm
      | succ j =>
        have hj : j < (b :: t).length := by
          simpa using Nat.lt_of_succ_lt_succ hi
        have hset : ((b :: t).set j m) ≠ [] := by
          intro hcontra
          have := congrArg List.length hcontra
          simp at this
        obtain ⟨y, Y, hY⟩ := List.exists_cons_of_ne_nil hset
        have h1 : swapRemoveAt (a :: b :: t) (j + 1) =
            a :: swapRemoveAt (b :: t) j := by
          simp only [swapRemoveAt, List.getLast?_cons_cons, hlast, List.set]
          rw [hY]
          exact List.dropLast_cons₂
        rw [h1, List.eraseIdx_cons_succ]
        exact List.Perm.cons a (ih j hj)

theorem swapRemoveAt_map_nodup {α β : Type} (f : α → β) {l : List α}
    {i : Nat} (h : (l.map f).Nodup) : ((swapRemoveAt l i).map f).Nodup := by
  by_cases hi : i < l.length
  · have hperm : ((swapRemoveAt l i).map f).Perm ((l.eraseIdx i).map f) :=
      (swapRemoveAt_perm l i hi).map f
    have hsub : List.Sublist ((l.eraseIdx i).map f) (l.map f) :=
      (List.eraseIdx_sublist l i).map f
    exact hperm.nodup_iff.mpr (hsub.nodup h)
  · have hge : l.length ≤ i := Nat.le_of_not_lt hi
    cases hlast : l.getLast? with
    | none => simpa [swapRemoveAt, hlast] using h
    | some a =>
      have hset : l.set i a = l := List.set_eq_of_length_le hge
      have : swapRemoveAt l i = l.dropLast := by
        simp [swapRemoveAt, hlast, hset]
      rw [this]
      exact ((List.dropLast_sublist l).map f).nodup h

/-! ### Characterization of `insertEntries` -/

namespace UniCaseIndexMap

variable {V : Type} {fold : String → String} {k k' : Key} {v : V}

theorem entryProbe_congr (h : fold k.text = fold k'.text) :
    (fun e : Key × V => keyEqv fold e.1 k) = fun e => keyEqv fold e.1 k' := by
  funext e
  simp only [keyEqv, h]

theorem insertEntries_of_absent :
    ∀ l : List (Key × V), (∀ e ∈ l, keyEqv fold e.1 k = false) →
      insertEntries fold l k v = (none, l ++ [(k, v)]) := by
  intro l h
  induction l with
  | nil => simp [insertEntries]
  | cons e rest ih =>
    have he : keyEqv fold e.1 k = false := h e (List.mem_cons_self e rest)
    have hrest : ∀ x ∈ rest, keyEqv fold x.1 k = false :=
      fun x hx => h x (List.mem_cons_of_mem e hx)
    simp [insertEntries, he, ih hrest]

theorem insertEntries_fst :
    ∀ l : List (Key × V),
      (insertEntries fold l k v).1 =
        (l.find? fun e => keyEqv fold e.1 k).map (·.2) := by
  intro l
  induction l with
  | nil => simp [insertEntries]
  | cons e rest ih =>
    by_cases he : keyEqv fold e.1 k = true
    · simp [insertEntries, he, List.find?_cons_of_pos]
    · have he' : keyEqv fold e.1 k = false := by
        simpa using he
      simp [insertEntries, he', List.find?_cons_of_neg, ih]

theorem insertEntries_find?_self (h : fold k'.text = fold k.text) :
    ∀ l : List (Key × V),
      (insertEntries fold l k v).2.find? (fun e => keyEqv fold e.1 k') =
        some (((l.find? fun e => keyEqv fold e.1 k).elim k (·.1)), v) := by
  intro l
  induction l with
  | nil =>
    have : keyEqv fold k k' = true := by
      rw [keyEqv_iff, h]
    simp [insertEntries, this]
  | cons e rest ih =>
    by_cases he : keyEqv fold e.1 k = true
    · have he' : keyEqv fold e.1 k' = true := by
        rw [keyEqv_iff] at he ⊢
        rw [he, h]
      simp [insertEntries, he, he', List.find?_cons_of_pos]
    · have hef : keyEqv fold e.1 k = false := by simpa using he
      have he' : keyEqv fold e.1 k' = false := by
        rw [keyEqv_eq_false_iff] at hef ⊢
        rw [h]; exact hef
      simp [insertEntries, hef, he', List.find?_cons_of_neg, ih]

theorem insertEntries_find?_other (h : keyEqv fold k k' = false) :
    ∀ l : List (Key × V),
      (insertEntries fold l k v).2.find? (fun e => keyEqv fold e.1 k') =
        l.find? (fun e => keyEqv fold e.1 k') := by
  intro l
  induction l with
  | nil => simp [insertEntries, h]
  | cons e rest ih =>
    by_cases he : keyEqv fold e.1 k = true
    · have he' : keyEqv fold e.1 k' = false := by
        rw [keyEqv_eq_false_iff] at h ⊢
        rw [keyEqv_iff] at he
        rw [he]; exact h
      simp [insertEntries, he, he', List.find?_cons_of_neg]
    · have hef : keyEqv fold e.1 k = false := by simpa using he
      by_cases he' : keyEqv fold e.1 k' = true
      · simp [insertEntries, hef, he', List.find?_cons_of_pos]
      · have he'f : keyEqv fold e.1 k' = false := by simpa using he'
        simp [insertEntries, hef, he'f, List.find?_cons_of_neg, ih]

theorem insertEntries_keys_of_present :
    ∀ l : List (Key × V), l.any (fun e => keyEqv fold e.1 k) = true →
      (insertEntries fold l k v).2.map Prod.fst = l.map Prod.fst := by
  intro l h
  induction l with
  | nil => simp at h
  | cons e rest ih =>
    by_cases he : keyEqv fold e.1 k = true
    · simp [insertEntries, he]
    · have hef : keyEqv fold e.1 k = false := by simpa using he
      have hrest : rest.any (fun e => keyEqv fold e.1 k) = true := by
        simp only [List.any_cons, hef, Bool.false_or] at h
        exact h
      simp [insertEntries, hef, ih hrest]

theorem insertEntries_length :
    ∀ l : List (Key × V),
      (insertEntries fold l k v).2.length =
        if l.any (fun e => keyEqv fold e.1 k) then l.length
        else l.length + 1 := by
  intro l
  induction l with
  | nil => simp [insertEntries]
  | cons e rest ih =>
    by_cases he : keyEqv fold e.1 k = true
    · simp [insertEntries, he]
    · have hef : keyEqv fold e.1 k = false := by simpa using he
      simp only [insertEntries, hef, Bool.false_eq_true, if_false,
        List.any_cons, Bool.false_or, List.length_cons]
      rw [ih]
      by_cases hr : rest.any (fun e => keyEqv fold e.1 k) = true
      · simp [hr]
      · have : rest.any (fun e => keyEqv fold e.1 k) = false := by
          simpa using hr
        simp [this]

/-! ### Map-level lemmas -/

theorem imap_contains_key_eq_false_iff {m : UniCaseIndexMap V} :
    m.contains_key fold k = false ↔
      ∀ e ∈ m.entries, keyEqv fold e.1 k = false := by
  simp [contains_key]

theorem imap_contains_key_eq_isSome (m : UniCaseIndexMap V) :
    m.contains_key fold k = (m.get_key_value fold k).isSome := by
  rw [Bool.eq_iff_iff]
  simp only [contains_key, List.any_eq_true, get_key_value,
    List.find?_isSome]

theorem insert_fst (m : UniCaseIndexMap V) :
    (m.insert fold k v).1 = (m.get_key_value fold k).map (·.2) :=
  insertEntries_fst m.entries

theorem insert_entries_of_absent {m : UniCaseIndexMap V}
    (h : m.contains_key fold k = false) :
    m.insert fold k v = (none, ⟨m.entries ++ [(k, v)]⟩) := by
  have := insertEntries_of_absent (v := v) m.entries
    (imap_contains_key_eq_false_iff.mp h)
  simp [insert, this]

theorem get_key_value_insert_self (h : fold k'.text = fold k.text)
    (m : UniCaseIndexMap V) :
    ((m.insert fold k v).2).get_key_value fold k' =
      some (((m.get_key_value fold k).elim k (·.1)), v) :=
  insertEntries_find?_self h m.entries

theorem get_key_value_insert_other (h : keyEqv fold k k' = false)
    (m : UniCaseIndexMap V) :
    ((m.insert fold k v).2).get_key_value fold k' =
      m.get_key_value fold k' :=
  insertEntries_find?_other h m.entries

theorem keys_insert_of_present {m : UniCaseIndexMap V}
    (h : m.contains_key fold k = true) :
    (m.insert fold k v).2.keys = m.keys :=
  insertEntries_keys_of_present m.entries h

theorem len_insert (m : UniCaseIndexMap V) :
    (m.insert fold k v).2.len =
      if m.contains_key fold k then m.len else m.len + 1 :=
  insertEntries_length m.entries

theorem remove_entry_of_absent {m : UniCaseIndexMap V}
    (h : m.contains_key fold k = false) :
    m.remove_entry fold k = (none, m) := by
  have hidx : findEntryIdx fold k m.entries = none :=
    findIdxP_eq_none_iff.mpr (imap_contains_key_eq_false_iff.mp h)
  simp [remove_entry, hidx]

theorem imap_remove_of_absent {m : UniCaseIndexMap V}
    (h : m.contains_key fold k = false) :
    m.remove fold k = (none, m) := by
  simp [remove, remove_entry_of_absent h]

theorem remove_entry_insert_of_absent {m : UniCaseIndexMap V}
    (h : m.contains_key fold k = false) (h' : fold k'.text = fold k.text) :
    ((m.insert fold k v).2).remove_entry fold k' = (some (k, v), m) := by
  have hins := insert_entries_of_absent (v := v) h
  have hkv : keyEqv fold k k' = true := by
    rw [keyEqv_iff, h']
  have habs : ∀ e ∈ m.entries, keyEqv fold e.1 k' = false := by
    intro e he
    rw [keyEqv_eq_false_iff, h']
    exact keyEqv_eq_false_iff.mp (imap_contains_key_eq_false_iff.mp h e he)
  have hidx : findEntryIdx fold k' ((m.insert fold k v).2).entries =
      some m.entries.length := by
    rw [hins]
    exact findIdxP_concat_of_absent
      (p := fun e : Key × V => keyEqv fold e.1 k') (x := (k, v)) hkv habs
  have hget : ((m.insert fold k v).2).entries[m.entries.length]? =
      some (k, v) := by
    rw [hins]
    exact List.getElem?_concat_length m.entries (k, v)
  have hswap : swapRemoveAt ((m.insert fold k v).2).entries
      m.entries.length = m.entries := by
    rw [hins]
    exact swapRemoveAt_concat m.entries (k, v)
  simp [remove_entry, hidx, hget, hswap]

theorem imap_get_key_value_congr (h : fold k.text = fold k'.text)
    (m : UniCaseIndexMap V) :
    m.get_key_value fold k = m.get_key_value fold k' := by
  unfold get_key_value
  rw [entryProbe_congr h]

theorem imap_contains_key_congr (h : fold k.text = fold k'.text)
    (m : UniCaseIndexMap V) :
    m.contains_key fold k = m.contains_key fold k' := by
  rw [imap_contains_key_eq_isSome, imap_contains_key_eq_isSome,
    imap_get_key_value_congr h]

end UniCaseIndexMap

/-! ### Set-level lemmas -/

namespace UniCaseIndexSet

variable {fold : String → String} {k k' : Key}

theorem keyProbe_congr (h : fold k.text = fold k'.text) :
    (fun k0 : Key => keyEqv fold k0 k) = fun k0 => keyEqv fold k0 k' := by
  funext k0
  simp only [keyEqv, h]

theorem iset_contains_eq_false_iff {s : UniCaseIndexSet} :
    s.contains fold k = false ↔
      ∀ k0 ∈ s.entries, keyEqv fold k0 k = false := by
  simp [contains]

theorem iset_contains_eq_isSome (s : UniCaseIndexSet) :
    s.contains fold k = (s.get fold k).isSome := by
  rw [Bool.eq_iff_iff]
  simp only [contains, List.any_eq_true, get, List.find?_isSome]

theorem iset_get_congr (h : fold k.text = fold k'.text) (s : UniCaseIndexSet) :
    s.get fold k = s.get fold k' := by
  unfold get
  rw [keyProbe_congr h]

theorem iset_contains_congr (h : fold k.text = fold k'.text)
    (s : UniCaseIndexSet) :
    s.contains fold k = s.contains fold k' := by
  rw [iset_contains_eq_isSome, iset_contains_eq_isSome, iset_get_congr h]

theorem insert_of_absent {s : UniCaseIndexSet}
    (h : s.contains fold k = false) :
    s.insert fold k = (true, ⟨s.entries ++ [k]⟩) := by
  simp [insert, h]

theorem get_insert_of_absent {s : UniCaseIndexSet}
    (h : s.contains fold k = false) (h' : fold k'.text = fold k.text) :
    ((s.insert fold k).2).get fold k' = some k := by
  rw [insert_of_absent h]
  have hnone : s.entries.find? (fun k0 => keyEqv fold k0 k') = none := by
    rw [List.find?_eq_none]
    intro k0 hk0
    have hne := keyEqv_eq_false_iff.mp (iset_contains_eq_false_iff.mp h k0 hk0)
    simp only [keyEqv_iff, h']
    exact hne
  have hk : keyEqv fold k k' = true := by
    rw [keyEqv_iff, h']
  simp [get, hnone, hk]

theorem iset_remove_of_absent {s : UniCaseIndexSet}
    (h : s.contains fold k = false) :
    s.remove fold k = (false, s) := by
  have hidx : findKeyIdx fold k s.entries = none :=
    findIdxP_eq_none_iff.mpr (iset_contains_eq_false_iff.mp h)
  simp [remove, hidx]

theorem iset_remove_insert_of_absent {s : UniCaseIndexSet}
    (h : s.contains fold k = false) (h' : fold k'.text = fold k.text) :
    ((s.insert fold k).2).remove fold k' = (true, s) := by
  rw [insert_of_absent h]
  have hkv : keyEqv fold k k' = true := by
    rw [keyEqv_iff, h']
  have habs : ∀ k0 ∈ s.entries, keyEqv fold k0 k' = false := by
    intro k0 hk0
    rw [keyEqv_eq_false_iff, h']
    exact keyEqv_eq_false_iff.mp (iset_contains_eq_false_iff.mp h k0 hk0)
  have hidx : findKeyIdx fold k' (s.entries ++ [k]) = some s.entries.length :=
    findIdxP_concat_of_absent
      (p := fun k0 : Key => keyEqv fold k0 k') (x := k) hkv habs
  have hswap : swapRemoveAt (s.entries ++ [k]) s.entries.length = s.entries :=
    swapRemoveAt_concat s.entries k
  simp [remove, hidx, hswap]

end UniCaseIndexSet

/-! ### Characterization of the B-tree set primitives -/

namespace UniCaseBTreeSet

variable {fold : String → String} {k k' : Key}

theorem bset_contains_eq_false_iff {s : UniCaseBTreeSet} :
    s.contains fold k = false ↔
      ∀ k0 ∈ s.entries, keyEqv fold k0 k = false := by
  simp [contains]

theorem bset_contains_eq_isSome (s : UniCaseBTreeSet) :
    s.contains fold k = (s.get fold k).isSome := by
  rw [Bool.eq_iff_iff]
  simp only [contains, List.any_eq_true, get, List.find?_isSome]

theorem bset_get_congr (h : fold k.text = fold k'.text) (s : UniCaseBTreeSet) :
    s.get fold k = s.get fold k' := by
  unfold get
  have : (fun k0 : Key => keyEqv fold k0 k) = fun k0 => keyEqv fold k0 k' := by
    funext k0
    simp only [keyEqv, h]
  rw [this]

theorem bset_contains_congr (h : fold k.text = fold k'.text)
    (s : UniCaseBTreeSet) :
    s.contains fold k = s.contains fold k' := by
  rw [bset_contains_eq_isSome, bset_contains_eq_isSome, bset_get_congr h]

theorem bset_insert_get_of_absent {s : UniCaseBTreeSet}
    (h : s.contains fold k = false) (h' : fold k'.text = fold k.text) :
    (s.insert fold k).1 = true ∧
      ((s.insert fold k).2).get fold k' = some k := by
  have hkk' : keyEqv fold k k' = true := by
    rw [keyEqv_iff, h']
  have main : ∀ l : List Key, (∀ k0 ∈ l, keyEqv fold k0 k = false) →
      (btreeInsertList fold l k).1 = true ∧
        (btreeInsertList fold l k).2.find?
          (fun k0 => keyEqv fold k0 k') = some k := by
    intro l
    induction l with
    | nil => simp [btreeInsertList, List.find?_cons_of_pos, hkk']
    | cons k0 rest ih =>
      intro habs
      have h0 : keyEqv fold k0 k = false := habs k0 (List.mem_cons_self k0 rest)
      have h0' : keyEqv fold k0 k' = false := by
        rw [keyEqv_eq_false_iff] at h0 ⊢
        rw [h']
        exact h0
      by_cases hlt : keyLt fold k k0 = true
      · simp [btreeInsertList, hlt, List.find?_cons_of_pos, hkk']
      · obtain ⟨ih1, ih2⟩ := ih fun x hx => habs x (List.mem_cons_of_mem k0 hx)
        simp [btreeInsertList, hlt, h0, List.find?_cons_of_neg, h0', ih1, ih2]
  exact main s.entries (bset_contains_eq_false_iff.mp h)

theorem btreeRemoveList_eq_eraseP (fold : String → String) (k : Key) :
    ∀ l : List Key, (btreeRemoveList fold l k).1 =
        (l.any fun k0 => keyEqv fold k0 k) ∧
      (btreeRemoveList fold l k).2 = l.eraseP fun k0 => keyEqv fold k0 k := by
  intro l
  induction l with
  | nil => simp [btreeRemoveList]
  | cons k0 rest ih =>
    by_cases h0 : keyEqv fold k0 k = true
    · simp [btreeRemoveList, h0, List.eraseP_cons_of_pos]
    · have h0' : keyEqv fold k0 k = false := by simpa using h0
      simp [btreeRemoveList, h0', List.eraseP_cons_of_neg, ih]

theorem bset_remove_of_absent {s : UniCaseBTreeSet}
    (h : s.contains fold k = false) :
    s.remove fold k = (false, s) := by
  obtain ⟨h1, h2⟩ := btreeRemoveList_eq_eraseP fold k s.entries
  have herase : s.entries.eraseP (fun k0 => keyEqv fold k0 k) = s.entries :=
    List.eraseP_of_forall_not fun k0 hk0 => by
      simp [bset_contains_eq_false_iff.mp h k0 hk0]
  have hany : (s.entries.any fun k0 => keyEqv fold k0 k) = false := h
  simp only [remove, h1, h2, herase, hany]

theorem bset_remove_insert_of_absent {s : UniCaseBTreeSet}
    (h : s.contains fold k = false) (h' : fold k'.text = fold k.text) :
    ((s.insert fold k).2).remove fold k' = (true, s) := by
  have main : ∀ l : List Key, (∀ k0 ∈ l, keyEqv fold k0 k = false) →
      btreeRemoveList fold (btreeInsertList fold l k).2 k' = (true, l) := by
    intro l
    induction l with
    | nil =>
      have : keyEqv fold k k' = true := by
        rw [keyEqv_iff, h']
      simp [btreeInsertList, btreeRemoveList, this]
    | cons k0 rest ih =>
      intro habs
      have h0 : keyEqv fold k0 k = false := habs k0 (List.mem_cons_self k0 rest)
      have h0' : keyEqv fold k0 k' = false := by
        rw [keyEqv_eq_false_iff] at h0 ⊢
        rw [h']
        exact h0
      have hkk' : keyEqv fold k k' = true := by
        rw [keyEqv_iff, h']
      by_cases hlt : keyLt fold k k0 = true
      · simp [btreeInsertList, hlt, btreeRemoveList, hkk', h0']
      · have ihr := ih fun x hx => habs x (List.mem_cons_of_mem k0 hx)
        simp [btreeInsertList, hlt, h0, btreeRemoveList, h0', ihr]
  have := main s.entries (bset_contains_eq_false_iff.mp h)
  simp only [remove, insert, this]

end UniCaseBTreeSet

/-! ### Lemmas for the spec-modelled ordered map -/

namespace UniCaseBTreeMap

variable {V : Type} {fold : String → String} {k k' k'' : Key} {v v'' : V}

theorem bmap_contains_key_eq_false_iff {m : UniCaseBTreeMap V} :
    m.contains_key fold k = false ↔
      ∀ e ∈ m.entries, keyEqv fold e.1 k = false := by
  simp [contains_key]

theorem bmap_contains_key_eq_isSome (m : UniCaseBTreeMap V) :
    m.contains_key fold k = (m.get_key_value fold k).isSome := by
  rw [Bool.eq_iff_iff]
  simp only [contains_key, List.any_eq_true, get_key_value, List.find?_isSome]

theorem bmap_get_key_value_congr (h : fold k.text = fold k'.text)
    (m : UniCaseBTreeMap V) :
    m.get_key_value fold k = m.get_key_value fold k' := by
  unfold get_key_value
  have : (fun e : Key × V => keyEqv fold e.1 k) =
      fun e => keyEqv fold e.1 k' := by
    funext e
    simp only [keyEqv, h]
  rw [this]

theorem bmap_insert_get_of_absent {m : UniCaseBTreeMap V}
    (h : m.contains_key fold k = false) (h' : fold k'.text = fold k.text) :
    (m.insert fold k v).1 = none ∧
      ((m.insert fold k v).2).get_key_value fold k' = some (k, v) := by
  have hkk' : keyEqv fold k k' = true := by
    rw [keyEqv_iff, h']
  have main : ∀ l : List (Key × V), (∀ e ∈ l, keyEqv fold e.1 k = false) →
      (btreeMapInsertList fold l k v).1 = none ∧
        (btreeMapInsertList fold l k v).2.find?
          (fun e => keyEqv fold e.1 k') = some (k, v) := by
    intro l
    induction l with
    | nil => simp [btreeMapInsertList, List.find?_cons_of_pos, hkk']
    | cons e rest ih =>
      intro habs
      have h0 : keyEqv fold e.1 k = false := habs e (List.mem_cons_self e rest)
      have h0' : keyEqv fold e.1 k' = false := by
        rw [keyEqv_eq_false_iff] at h0 ⊢
        rw [h']
        exact h0
      by_cases hlt : keyLt fold k e.1 = true
      · simp [btreeMapInsertList, hlt, List.find?_cons_of_pos, hkk']
      · obtain ⟨ih1, ih2⟩ := ih fun x hx => habs x (List.mem_cons_of_mem e hx)
        simp [btreeMapInsertList, hlt, h0, List.find?_cons_of_neg, h0',
          ih1, ih2]
  exact main m.entries (bmap_contains_key_eq_false_iff.mp h)

theorem insert_insert_of_absent {m : UniCaseBTreeMap V}
    (h : m.contains_key fold k = false)
    (h1 : fold k''.text = fold k.text) (h2 : fold k'.text = fold k.text) :
    (((m.insert fold k v).2).insert fold k'' v'').1 = some v ∧
      ((((m.insert fold k v).2).insert fold k'' v'').2).get_key_value fold k' =
        some (k, v'') := by
  have hkk' : keyEqv fold k k' = true := by
    rw [keyEqv_iff, h2]
  have hk''k : keyEqv fold k k'' = true := by
    rw [keyEqv_iff, h1]
  have hnotlt : keyLt fold k'' k = false := by
    simp only [keyLt, decide_eq_false_iff_not, h1]
    exact lt_irrefl _
  have main : ∀ l : List (Key × V), (∀ e ∈ l, keyEqv fold e.1 k = false) →
      btreeMapInsertList fold (btreeMapInsertList fold l k v).2 k'' v'' =
        (some v, (btreeMapInsertList fold l k v'').2) ∧
        (btreeMapInsertList fold l k v'').2.find?
          (fun e => keyEqv fold e.1 k') = some (k, v'') := by
    intro l
    induction l with
    | nil =>
      simp [btreeMapInsertList, hnotlt, hk''k, List.find?_cons_of_pos, hkk']
    | cons e rest ih =>
      intro habs
      have h0 : keyEqv fold e.1 k = false := habs e (List.mem_cons_self e rest)
      have h0'' : keyEqv fold e.1 k'' = false := by
        rw [keyEqv_eq_false_iff] at h0 ⊢
        rw [h1]
        exact h0
      have h0' : keyEqv fold e.1 k' = false := by
        rw [keyEqv_eq_false_iff] at h0 ⊢
        rw [h2]
        exact h0
      have hlt'' : keyLt fold k'' e.1 = keyLt fold k e.1 := by
        simp only [keyLt, h1]
      by_cases hlt : keyLt fold k e.1 = true
      · simp [btreeMapInsertList, hlt, hlt'', hnotlt, hk''k,
          List.find?_cons_of_pos, hkk']
      · obtain ⟨ih1, ih2⟩ := ih fun x hx => habs x (List.mem_cons_of_mem e hx)
        simp [btreeMapInsertList, hlt, hlt'', h0, h0'',
          List.find?_cons_of_neg, h0', ih1, ih2]
  obtain ⟨hmain1, hmain2⟩ := main m.entries (bmap_contains_key_eq_false_iff.mp h)
  constructor
  · simp [insert, hmain1]
  · simp [insert, get_key_value, hmain1, hmain2]

theorem bmap_remove_of_absent {m : UniCaseBTreeMap V}
    (h : m.contains_key fold k = false) :
    m.remove fold k = (none, m) := by
  have main : ∀ l : List (Key × V), (∀ e ∈ l, keyEqv fold e.1 k = false) →
      btreeMapRemoveList fold l k = (none, l) := by
    intro l
    induction l with
    | nil => simp [btreeMapRemoveList]
    | cons e rest ih =>
      intro habs
      have h0 : keyEqv fold e.1 k = false := habs e (List.mem_cons_self e rest)
      simp [btreeMapRemoveList, h0,
        ih fun x hx => habs x (List.mem_cons_of_mem e hx)]
  have := main m.entries (bmap_contains_key_eq_false_iff.mp h)
  simp only [remove, this]

theorem bmap_remove_insert_of_absent {m : UniCaseBTreeMap V}
    (h : m.contains_key fold k = false) (h' : fold k'.text = fold k.text) :
    ((m.insert fold k v).2).remove fold k' = (some v, m) := by
  have hkk' : keyEqv fold k k' = true := by
    rw [keyEqv_iff, h']
  have main : ∀ l : List (Key × V), (∀ e ∈ l, keyEqv fold e.1 k = false) →
      btreeMapRemoveList fold (btreeMapInsertList fold l k v).2 k' =
        (some v, l) := by
    intro l
    induction l with
    | nil => simp [btreeMapInsertList, btreeMapRemoveList, hkk']
    | cons e rest ih =>
      intro habs
      have h0 : keyEqv fold e.1 k = false := habs e (List.mem_cons_self e rest)
      have h0' : keyEqv fold e.1 k' = false := by
        rw [keyEqv_eq_false_iff] at h0 ⊢
        rw [h']
        exact h0
      by_cases hlt : keyLt fold k e.1 = true
      · simp [btreeMapInsertList, hlt, btreeMapRemoveList, hkk', h0']
      · have ihr := ih fun x hx => habs x (List.mem_cons_of_mem e hx)
        simp [btreeMapInsertList, hlt, h0, btreeMapRemoveList, h0', ihr]
  have := main m.entries (bmap_contains_key_eq_false_iff.mp h)
  simp only [remove, insert, this]

end UniCaseBTreeMap

theorem UniCaseIndexMap.imap_get_key_value_eq_none {V : Type}
    {fold : String → String} {k : Key} {m : UniCaseIndexMap V}
    (h : m.contains_key fold k = false) :
    m.get_key_value fold k = none := by
  have := (@imap_contains_key_eq_isSome _ fold k m).symm
  rw [h] at this
  exact Option.not_isSome_iff_eq_none.mp (by simp [this])

theorem UniCaseBTreeMap.bmap_get_key_value_eq_none {V : Type}
    {fold : String → String} {k : Key} {m : UniCaseBTreeMap V}
    (h : m.contains_key fold k = false) :
    m.get_key_value fold k = none := by
  have := (@bmap_contains_key_eq_isSome _ fold k m).symm
  rw [h] at this
  exact Option.not_isSome_iff_eq_none.mp (by simp [this])

theorem UniCaseBTreeMap.bmap_contains_key_congr {V : Type}
    {fold : String → String} {k k' : Key} (h : fold k.text = fold k'.text)
    (m : UniCaseBTreeMap V) :
    m.contains_key fold k = m.contains_key fold k' := by
  rw [bmap_contains_key_eq_isSome, bmap_contains_key_eq_isSome,
    bmap_get_key_value_congr h]

theorem UniCaseBTreeSet.bset_contains_insert_self (fold : String → String)
    (s : UniCaseBTreeSet) (k : Key) :
    ((s.insert fold k).2).contains fold k = true := by
  have hkk : keyEqv fold k k = true := by
    rw [keyEqv_iff]
  have main : ∀ l : List Key,
      (btreeInsertList fold l k).2.any (fun k0 => keyEqv fold k0 k) = true := by
    intro l
    induction l with
    | nil => simp [btreeInsertList, hkk]
    | cons k0 rest ih =>
      by_cases hlt : keyLt fold k k0 = true
      · simp [btreeInsertList, hlt, hkk]
      · by_cases h0 : keyEqv fold k0 k = true
        · simp [btreeInsertList, hlt, h0]
        · have h0' : keyEqv fold k0 k = false := by simpa using h0
          simp [btreeInsertList, hlt, h0', ih]
  exact main s.entries

theorem UniCaseBTreeMap.bmap_contains_insert_self {V : Type}
    (fold : String → String) (m : UniCaseBTreeMap V) (k : Key) (v : V) :
    ((m.insert fold k v).2).contains_key fold k = true := by
  have hkk : keyEqv fold k k = true := by
    rw [keyEqv_iff]
  have main : ∀ l : List (Key × V),
      (btreeMapInsertList fold l k v).2.any
        (fun e => keyEqv fold e.1 k) = true := by
    intro l
    induction l with
    | nil => simp [btreeMapInsertList, hkk]
    | cons e rest ih =>
      by_cases hlt : keyLt fold k e.1 = true
      · simp [btreeMapInsertList, hlt, hkk]
      · by_cases h0 : keyEqv fold e.1 k = true
        · simp [btreeMapInsertList, hlt, h0]
        · have h0' : keyEqv fold e.1 k = false := by simpa using h0
          simp [btreeMapInsertList, hlt, h0', ih]
  exact main m.entries

theorem UniCaseIndexMap.imap_contains_insert_self {V : Type}
    (fold : String → String) (m : UniCaseIndexMap V) (k : Key) (v : V) :
    ((m.insert fold k v).2).contains_key fold k = true := by
  rw [imap_contains_key_eq_isSome, get_key_value_insert_self rfl m]
  rfl

theorem UniCaseIndexSet.iset_contains_insert_self (fold : String → String)
    (s : UniCaseIndexSet) (k : Key) :
    ((s.insert fold k).2).contains fold k = true := by
  by_cases h : s.contains fold k = true
  · simp [insert, h]
  · have hf : s.contains fold k = false := by simpa using h
    have hkk : keyEqv fold k k = true := by
      rw [keyEqv_iff]
    rw [insert_of_absent hf]
    simp [contains, hkk]

/-! ### The at-most-one-entry-per-folded-form invariant -/

namespace UniCaseIndexMap

variable {V : Type} {fold : String → String} {k : Key} {v : V}

/-- The adapter invariant: no two stored keys have equal case-folded
forms. -/
def Distinct (fold : String → String) (m : UniCaseIndexMap V) : Prop :=
  (m.entries.map fun e => fold e.1.text).Nodup

theorem imap_distinct_insert {m : UniCaseIndexMap V} (h : Distinct fold m) :
    Distinct fold (m.insert fold k v).2 := by
  by_cases hc : m.contains_key fold k = true
  · have hkeys : (m.insert fold k v).2.keys = m.keys :=
      keys_insert_of_present hc
    unfold Distinct
    have heq : (m.insert fold k v).2.entries.map (fun e => fold e.1.text) =
        m.entries.map fun e => fold e.1.text := by
      have h1 := congrArg (List.map fun k0 : Key => fold k0.text) hkeys
      simpa [keys, List.map_map, Function.comp] using h1
    rw [heq]
    exact h
  · have hc' : m.contains_key fold k = false := by simpa using hc
    rw [insert_entries_of_absent hc']
    unfold Distinct
    have hperm : ((m.entries ++ [(k, v)]).map fun e => fold e.1.text).Perm
        (((k, v) :: m.entries).map fun e => fold e.1.text) :=
      (List.perm_append_singleton _ _).map _
    rw [hperm.nodup_iff]
    simp only [List.map_cons, List.nodup_cons]
    refine ⟨?_, h⟩
    intro hmem
    rw [List.mem_map] at hmem
    obtain ⟨e, he, hfe⟩ := hmem
    exact keyEqv_eq_false_iff.mp (imap_contains_key_eq_false_iff.mp hc' e he) hfe

theorem distinct_remove_entry {m : UniCaseIndexMap V} (h : Distinct fold m) :
    Distinct fold (m.remove_entry fold k).2 := by
  cases hidx : findEntryIdx fold k m.entries with
  | none => simpa [remove_entry, hidx] using h
  | some i =>
    cases hget : m.entries[i]? with
    | none => simpa [remove_entry, hidx, hget] using h
    | some e =>
      have : (m.remove_entry fold k).2 = ⟨swapRemoveAt m.entries i⟩ := by
        simp [remove_entry, hidx, hget]
      rw [this]
      exact swapRemoveAt_map_nodup _ h

theorem imap_distinct_remove {m : UniCaseIndexMap V} (h : Distinct fold m) :
    Distinct fold (m.remove fold k).2 :=
  distinct_remove_entry h

theorem imap_distinct_retain {m : UniCaseIndexMap V} (p : Key → V → Bool)
    (h : Distinct fold m) : Distinct fold (m.retain p) :=
  List.Nodup.sublist
    ((List.filter_sublist m.entries).map fun e => fold e.1.text) h

theorem imap_distinct_extend {m : UniCaseIndexMap V} (l : List (Key × V))
    (h : Distinct fold m) : Distinct fold (m.extend fold l) := by
  induction l generalizing m with
  | nil => exact h
  | cons e rest ih => exact ih (imap_distinct_insert h)

theorem distinct_entry_or_insert {m : UniCaseIndexMap V}
    (h : Distinct fold m) : Distinct fold (m.entry_or_insert fold k v) := by
  by_cases hc : m.contains_key fold k = true
  · simpa [entry_or_insert, hc] using h
  · have hc' : m.contains_key fold k = false := by simpa using hc
    have happ : m.entry_or_insert fold k v = ⟨m.entries ++ [(k, v)]⟩ := by
      simp [entry_or_insert, hc']
    have hins := imap_distinct_insert (k := k) (v := v) h
    rw [insert_entries_of_absent hc'] at hins
    rw [happ]
    exact hins

theorem imap_distinct_clear (m : UniCaseIndexMap V) : Distinct fold m.clear :=
  List.nodup_nil

end UniCaseIndexMap

namespace UniCaseIndexSet

variable {fold : String → String} {k : Key}

/-- The adapter invariant: no two stored keys have equal case-folded
forms. -/
def Distinct (fold : String → String) (s : UniCaseIndexSet) : Prop :=
  (s.entries.map fun k0 => fold k0.text).Nodup

theorem iset_distinct_insert {s : UniCaseIndexSet} (h : Distinct fold s) :
    Distinct fold (s.insert fold k).2 := by
  by_cases hc : s.contains fold k = true
  · simpa [insert, hc] using h
  · have hc' : s.contains fold k = false := by simpa using hc
    rw [insert_of_absent hc']
    unfold Distinct
    have hperm : ((s.entries ++ [k]).map fun k0 => fold k0.text).Perm
        ((k :: s.entries).map fun k0 => fold k0.text) :=
      (List.perm_append_singleton _ _).map _
    rw [hperm.nodup_iff]
    simp only [List.map_cons, List.nodup_cons]
    refine ⟨?_, h⟩
    intro hmem
    rw [List.mem_map] at hmem
    obtain ⟨k0, hk0, hfk0⟩ := hmem
    exact keyEqv_eq_false_iff.mp (iset_contains_eq_false_iff.mp hc' k0 hk0) hfk0

theorem iset_distinct_remove {s : UniCaseIndexSet} (h : Distinct fold s) :
    Distinct fold (s.remove fold k).2 := by
  cases hidx : findKeyIdx fold k s.entries with
  | none => simpa [remove, hidx] using h
  | some i =>
    have : (s.remove fold k).2 = ⟨swapRemoveAt s.entries i⟩ := by
      simp [remove, hidx]
    rw [this]
    exact swapRemoveAt_map_nodup _ h

theorem iset_distinct_retain {s : UniCaseIndexSet} (p : Key → Bool)
    (h : Distinct fold s) : Distinct fold (s.retain p) :=
  List.Nodup.sublist
    ((List.filter_sublist s.entries).map fun k0 => fold k0.text) h

theorem iset_distinct_extend {s : UniCaseIndexSet} (l : List Key)
    (h : Distinct fold s) : Distinct fold (s.extend fold l) := by
  induction l generalizing s with
  | nil => exact h
  | cons k0 rest ih => exact ih (iset_distinct_insert h)

theorem iset_distinct_clear (s : UniCaseIndexSet) : Distinct fold s.clear :=
  List.nodup_nil

end UniCaseIndexSet

theorem keyLt_trans {fold : String → String} {a b c : Key}
    (h1 : keyLt fold a b = true) (h2 : keyLt fold b c = true) :
    keyLt fold a c = true := by
  simp only [keyLt, decide_eq_true_eq] at h1 h2 ⊢
  exact lt_trans h1 h2

theorem keyLt_of_not_lt_of_not_eqv {fold : String → String} {a b : Key}
    (h1 : ¬keyLt fold b a = true) (h2 : keyEqv fold a b = false) :
    keyLt fold a b = true := by
  simp only [keyLt, decide_eq_true_eq] at h1 ⊢
  rw [keyEqv_eq_false_iff] at h2
  exact lt_of_le_of_ne (le_of_not_lt h1) h2

namespace UniCaseBTreeSet

variable {fold : String → String} {k : Key}

/-- The adapter invariant: no two stored keys have equal case-folded
forms. -/
def Distinct (fold : String → String) (s : UniCaseBTreeSet) : Prop :=
  (s.entries.map fun k0 => fold k0.text).Nodup

/-- The representation invariant of a `BTreeSet`: keys strictly increasing
in the canonical order. -/
def SortedEntries (fold : String → String) (s : UniCaseBTreeSet) : Prop :=
  List.Pairwise (fun a b => keyLt fold a b = true) s.entries

theorem bset_distinct_of_sorted {s : UniCaseBTreeSet}
    (h : SortedEntries fold s) : Distinct fold s := by
  unfold Distinct List.Nodup
  rw [List.pairwise_map]
  refine h.imp ?_
  intro a b hab
  simp only [keyLt, decide_eq_true_eq] at hab
  exact ne_of_lt hab

theorem mem_btreeInsertList {x : Key} :
    ∀ l : List Key, x ∈ (btreeInsertList fold l k).2 → x ∈ l ∨ x = k := by
  intro l
  induction l with
  | nil =>
    intro hx
    simp only [btreeInsertList, List.mem_singleton] at hx
    exact Or.inr hx
  | cons k0 rest ih =>
    intro hx
    by_cases hlt : keyLt fold k k0 = true
    · simp only [btreeInsertList, hlt, if_true, List.mem_cons] at hx
      rcases hx with h | h | h
      · exact Or.inr h
      · exact Or.inl (by simp [h])
      · exact Or.inl (by simp [h])
    · by_cases h0 : keyEqv fold k0 k = true
      · simp only [btreeInsertList, hlt, if_false, h0, if_true] at hx
        exact Or.inl hx
      · have h0' : keyEqv fold k0 k = false := by simpa using h0
        simp only [btreeInsertList, hlt, h0', if_false, Bool.false_eq_true,
          List.mem_cons] at hx
        rcases hx with h | h
        · exact Or.inl (by simp [h])
        · rcases ih h with h | h
          · exact Or.inl (List.mem_cons_of_mem k0 h)
          · exact Or.inr h

theorem sorted_btreeInsertList :
    ∀ l : List Key, List.Pairwise (fun a b => keyLt fold a b = true) l →
      List.Pairwise (fun a b => keyLt fold a b = true)
        (btreeInsertList fold l k).2 := by
  intro l
  induction l with
  | nil => intro _; simp [btreeInsertList]
  | cons k0 rest ih =>
    intro h
    rw [List.pairwise_cons] at h
    obtain ⟨h1, h2⟩ := h
    by_cases hlt : keyLt fold k k0 = true
    · simp only [btreeInsertList, hlt, if_true]
      rw [List.pairwise_cons]
      refine ⟨?_, ?_⟩
      · intro b hb
        rcases List.mem_cons.mp hb with h | h
        · rw [h]
          exact hlt
        · exact keyLt_trans hlt (h1 b h)
      · rw [List.pairwise_cons]
        exact ⟨h1, h2⟩
    · by_cases h0 : keyEqv fold k0 k = true
      · have hltf : keyLt fold k k0 = false := by simpa using hlt
        simp only [btreeInsertList, hltf, Bool.false_eq_true, if_false, h0,
          if_true]
        rw [List.pairwise_cons]
        exact ⟨h1, h2⟩
      · have h0' : keyEqv fold k0 k = false := by simpa using h0
        have hk0k : keyLt fold k0 k = true := by
          refine keyLt_of_not_lt_of_not_eqv hlt ?_
          rw [keyEqv_eq_false_iff] at h0' ⊢
          exact h0'
        simp only [btreeInsertList, hlt, h0', if_false, Bool.false_eq_true]
        rw [List.pairwise_cons]
        refine ⟨?_, ih h2⟩
        intro b hb
        rcases mem_btreeInsertList rest hb with h | h
        · exact h1 b h
        · rw [h]
          exact hk0k

theorem bset_sorted_insert {s : UniCaseBTreeSet} (h : SortedEntries fold s) :
    SortedEntries fold (s.insert fold k).2 :=
  sorted_btreeInsertList s.entries h

theorem bset_sorted_remove {s : UniCaseBTreeSet} (h : SortedEntries fold s) :
    SortedEntries fold (s.remove fold k).2 := by
  have := (btreeRemoveList_eq_eraseP fold k s.entries).2
  unfold SortedEntries
  show List.Pairwise _ (btreeRemoveList fold s.entries k).2
  rw [this]
  exact List.Pairwise.sublist (List.eraseP_sublist s.entries) h

theorem bset_sorted_retain {s : UniCaseBTreeSet} (p : Key → Bool)
    (h : SortedEntries fold s) : SortedEntries fold (s.retain p) :=
  List.Pairwise.sublist (List.filter_sublist s.entries) h

theorem sorted_extend {s : UniCaseBTreeSet} (l : List Key)
    (h : SortedEntries fold s) : SortedEntries fold (s.extend fold l) := by
  induction l generalizing s with
  | nil => exact h
  | cons k0 rest ih => exact ih (bset_sorted_insert h)

theorem sorted_clear (s : UniCaseBTreeSet) : SortedEntries fold s.clear :=
  List.Pairwise.nil

end UniCaseBTreeSet

namespace UniCaseBTreeMap

variable {V : Type} {fold : String → String} {k : Key} {v : V}

/-- The adapter invariant: no two stored keys have equal case-folded
forms. -/
def Distinct (fold : String → String) (m : UniCaseBTreeMap V) : Prop :=
  (m.entries.map fun e => fold e.1.text).Nodup

/-- The representation invariant of a `BTreeMap`: entry keys strictly
increasing in the canonical order. -/
def SortedEntries (fold : String → String) (m : UniCaseBTreeMap V) : Prop :=
  List.Pairwise (fun a b => keyLt fold a.1 b.1 = true) m.entries

theorem bmap_distinct_of_sorted {m : UniCaseBTreeMap V}
    (h : SortedEntries fold m) : Distinct fold m := by
  unfold Distinct List.Nodup
  rw [List.pairwise_map]
  refine h.imp ?_
  intro a b hab
  simp only [keyLt, decide_eq_true_eq] at hab
  exact ne_of_lt hab

theorem mem_btreeMapInsertList {x : Key × V} :
    ∀ l : List (Key × V), x ∈ (btreeMapInsertList fold l k v).2 →
      (∃ y ∈ l, x.1 = y.1) ∨ x.1 = k := by
  intro l
  induction l with
  | nil =>
    intro hx
    simp only [btreeMapInsertList, List.mem_singleton] at hx
    exact Or.inr (by rw [hx])
  | cons e rest ih =>
    intro hx
    by_cases hlt : keyLt fold k e.1 = true
    · simp only [btreeMapInsertList, hlt, if_true, List.mem_cons] at hx
      rcases hx with h | h | h
      · exact Or.inr (by rw [h])
      · exact Or.inl ⟨e, List.mem_cons_self e rest, by rw [h]⟩
      · exact Or.inl ⟨x, List.mem_cons_of_mem e h, rfl⟩
    · by_cases h0 : keyEqv fold e.1 k = true
      · have hltf : keyLt fold k e.1 = false := by simpa using hlt
        simp only [btreeMapInsertList, hltf, Bool.false_eq_true, if_false,
          h0, if_true, List.mem_cons] at hx
        rcases hx with h | h
        · exact Or.inl ⟨e, List.mem_cons_self e rest, by rw [h]⟩
        · exact Or.inl ⟨x, List.mem_cons_of_mem e h, rfl⟩
      · have hltf : keyLt fold k e.1 = false := by simpa using hlt
        have h0' : keyEqv fold e.1 k = false := by simpa using h0
        simp only [btreeMapInsertList, hltf, Bool.false_eq_true, if_false,
          h0', List.mem_cons] at hx
        rcases hx with h | h
        · exact Or.inl ⟨e, List.mem_cons_self e rest, by rw [h]⟩
        · rcases ih h with ⟨y, hy, hxy⟩ | h
          · exact Or.inl ⟨y, List.mem_cons_of_mem e hy, hxy⟩
          · exact Or.inr h

theorem sorted_btreeMapInsertList :
    ∀ l : List (Key × V),
      List.Pairwise (fun a b => keyLt fold a.1 b.1 = true) l →
      List.Pairwise (fun a b => keyLt fold a.1 b.1 = true)
        (btreeMapInsertList fold l k v).2 := by
  intro l
  induction l with
  | nil => intro _; simp [btreeMapInsertList]
  | cons e rest ih =>
    intro h
    rw [List.pairwise_cons] at h
    obtain ⟨h1, h2⟩ := h
    by_cases hlt : keyLt fold k e.1 = true
    · simp only [btreeMapInsertList, hlt, if_true]
      rw [List.pairwise_cons]
      refine ⟨?_, ?_⟩
      · intro b hb
        rcases List.mem_cons.mp hb with h | h
        · rw [h]
          exact hlt
        · exact keyLt_trans hlt (h1 b h)
      · rw [List.pairwise_cons]
        exact ⟨h1, h2⟩
    · by_cases h0 : keyEqv fold e.1 k = true
      · have hltf : keyLt fold k e.1 = false := by simpa using hlt
        simp only [btreeMapInsertList, hltf, Bool.false_eq_true, if_false,
          h0, if_true]
        rw [List.pairwise_cons]
        exact ⟨h1, h2⟩
      · have hltf : keyLt fold k e.1 = false := by simpa using hlt
        have h0' : keyEqv fold e.1 k = false := by simpa using h0
        have hek : keyLt fold e.1 k = true := by
          refine keyLt_of_not_lt_of_not_eqv hlt ?_
          rw [keyEqv_eq_false_iff] at h0' ⊢
          exact h0'
        simp only [btreeMapInsertList, hltf, Bool.false_eq_true, if_false,
          h0']
        rw [List.pairwise_cons]
        refine ⟨?_, ih h2⟩
        intro b hb
        rcases mem_btreeMapInsertList rest hb with ⟨y, hy, hby⟩ | h
        · rw [hby]
          exact h1 y hy
        · rw [h]
          exact hek

theorem bmap_sorted_insert {m : UniCaseBTreeMap V} (h : SortedEntries fold m) :
    SortedEntries fold (m.insert fold k v).2 :=
  sorted_btreeMapInsertList m.entries h

theorem btreeMapRemoveList_eq_eraseP (fold : String → String) (k : Key) :
    ∀ l : List (Key × V),
      (btreeMapRemoveList fold l k).2 =
        l.eraseP fun e => keyEqv fold e.1 k := by
  intro l
  induction l with
  | nil => simp [btreeMapRemoveList]
  | cons e rest ih =>
    by_cases h0 : keyEqv fold e.1 k = true
    · simp [btreeMapRemoveList, h0, List.eraseP_cons_of_pos]
    · have h0' : keyEqv fold e.1 k = false := by simpa using h0
      simp [btreeMapRemoveList, h0', List.eraseP_cons_of_neg, ih]

theorem bmap_sorted_remove {m : UniCaseBTreeMap V} (h : SortedEntries fold m) :
    SortedEntries fold (m.remove fold k).2 := by
  unfold SortedEntries
  show List.Pairwise _ (btreeMapRemoveList fold m.entries k).2
  rw [btreeMapRemoveList_eq_eraseP]
  exact List.Pairwise.sublist (List.eraseP_sublist m.entries) h

theorem bmap_sorted_retain {m : UniCaseBTreeMap V} (p : Key → V → Bool)
    (h : SortedEntries fold m) : SortedEntries fold (m.retain p) :=
  List.Pairwise.sublist (List.filter_sublist m.entries) h

end UniCaseBTreeMap

/-! ### Bulk construction -/

namespace UniCaseIndexMap

variable {V : Type} {fold : String → String}

theorem from_iter_snoc (l : List (Key × V)) (x : Key × V) :
    from_iter fold (l ++ [x]) = ((from_iter fold l).insert fold x.1 x.2).2 := by
  simp [from_iter, extend, List.foldl_append]

theorem contains_key_iff_mem_folds {m : UniCaseIndexMap V} {k : Key} :
    m.contains_key fold k = true ↔
      fold k.text ∈ m.entries.map fun e => fold e.1.text := by
  constructor
  · intro h
    simp only [contains_key, List.any_eq_true] at h
    obtain ⟨e, he, hpe⟩ := h
    rw [List.mem_map]
    exact ⟨e, he, keyEqv_iff.mp hpe⟩
  · intro h
    rw [List.mem_map] at h
    obtain ⟨e, he, hfe⟩ := h
    simp only [contains_key, List.any_eq_true]
    exact ⟨e, he, keyEqv_iff.mpr hfe⟩

theorem from_iter_spec (l : List (Key × V)) :
    ((from_iter fold l).entries.map fun e => fold e.1.text).toFinset =
        (l.map fun e => fold e.1.text).toFinset
    ∧ (∀ k : Key, l.find? (fun e => keyEqv fold e.1 k) = none →
        (from_iter fold l).get_key_value fold k = none)
    ∧ (∀ (k : Key) (e0 eN : Key × V),
        l.find? (fun e => keyEqv fold e.1 k) = some e0 →
        l.reverse.find? (fun e => keyEqv fold e.1 k) = some eN →
        (from_iter fold l).get_key_value fold k = some (e0.1, eN.2)) := by
  induction l using List.reverseRecOn with
  | nil =>
    refine ⟨rfl, ?_, ?_⟩
    · intro k _
      rfl
    · intro k e0 eN h0 _
      simp at h0
  | append_singleton l x ih =>
    obtain ⟨ih1, ih2, ih3⟩ := ih
    rw [from_iter_snoc]
    refine ⟨?_, ?_, ?_⟩
    · by_cases hc : (from_iter fold l).contains_key fold x.1 = true
      · have hkeys := keys_insert_of_present (v := x.2) hc
        have heq : (((from_iter fold l).insert fold x.1 x.2).2.entries.map
            fun e => fold e.1.text) =
            (from_iter fold l).entries.map fun e => fold e.1.text := by
          have h1 := congrArg (List.map fun k0 : Key => fold k0.text) hkeys
          simpa [keys, List.map_map, Function.comp] using h1
        rw [heq, ih1]
        have hmem : fold x.1.text ∈ (l.map fun e => fold e.1.text).toFinset := by
          rw [← ih1]
          exact List.mem_toFinset.mpr (contains_key_iff_mem_folds.mp hc)
        rw [List.map_append, List.toFinset_append]
        have hsub : (List.map (fun e : Key × V => fold e.1.text) [x]).toFinset ⊆
            (l.map fun e => fold e.1.text).toFinset := by
          intro a ha
          simp only [List.map_cons, List.map_nil, List.toFinset_cons,
            List.toFinset_nil] at ha
          rcases Finset.mem_insert.mp ha with h | h
          · rw [h]
            exact hmem
          · exact absurd h (Finset.not_mem_empty a)
        exact (Finset.union_eq_left.mpr hsub).symm
      · have hc' : (from_iter fold l).contains_key fold x.1 = false := by
          simpa using hc
        rw [insert_entries_of_absent hc']
        simp only [List.map_append, List.toFinset_append, ih1]
    · intro k hfind
      rw [List.find?_append] at hfind
      have h1 : l.find? (fun e => keyEqv fold e.1 k) = none := by
        cases h : l.find? (fun e => keyEqv fold e.1 k) with
        | none => rfl
        | some e => rw [h] at hfind; simp [Option.or] at hfind
      have h2 : keyEqv fold x.1 k = false := by
        rw [h1] at hfind
        simp only [Option.none_or] at hfind
        by_cases hx : keyEqv fold x.1 k = true
        · rw [List.find?_cons_of_pos
            (p := fun e : Key × V => keyEqv fold e.1 k) _ hx] at hfind
          exact absurd hfind (by simp)
        · simpa using hx
      rw [get_key_value_insert_other h2, ih2 k h1]
    · intro k e0 eN h0 hN
      rw [List.reverse_append] at hN
      simp only [List.reverse_cons, List.reverse_nil, List.nil_append,
        List.singleton_append] at hN
      by_cases hx : keyEqv fold x.1 k = true
      · have hNx : eN = x := by
          rw [List.find?_cons_of_pos
            (p := fun e : Key × V => keyEqv fold e.1 k) _ hx] at hN
          exact (Option.some.inj hN).symm
        have hfk : fold k.text = fold x.1.text :=
          (keyEqv_iff.mp hx).symm
        rw [get_key_value_insert_self hfk]
        cases hl : l.find? (fun e => keyEqv fold e.1 k) with
        | none =>
          have h0x : e0 = x := by
            rw [List.find?_append, hl] at h0
            simp only [Option.none_or] at h0
            rw [List.find?_cons_of_pos
              (p := fun e : Key × V => keyEqv fold e.1 k) _ hx] at h0
            exact (Option.some.inj h0).symm
          have hgl : (from_iter fold l).get_key_value fold x.1 = none := by
            rw [imap_get_key_value_congr hfk.symm]
            exact ih2 k hl
          rw [hgl, hNx, h0x]
          rfl
        | some e1 =>
          have h0e : e0 = e1 := by
            rw [List.find?_append, hl] at h0
            simp only [Option.or] at h0
            exact (Option.some.inj h0).symm
          obtain ⟨eN', hN'⟩ : ∃ eN', l.reverse.find?
              (fun e => keyEqv fold e.1 k) = some eN' := by
            cases hrev : l.reverse.find? (fun e => keyEqv fold e.1 k) with
            | none =>
              have : l.find? (fun e => keyEqv fold e.1 k) = none := by
                rw [List.find?_eq_none] at hrev ⊢
                intro a ha
                exact hrev a (List.mem_reverse.mpr ha)
              rw [this] at hl
              exact absurd hl (by simp)
            | some e => exact ⟨e, rfl⟩
          have hgl := ih3 k e1 eN' hl hN'
          have hgl' : (from_iter fold l).get_key_value fold x.1 =
              some (e1.1, eN'.2) := by
            rw [imap_get_key_value_congr hfk.symm]
            exact hgl
          rw [hgl', hNx, h0e]
          rfl
      · have hx' : keyEqv fold x.1 k = false := by simpa using hx
        rw [List.find?_cons_of_neg
          (p := fun e : Key × V => keyEqv fold e.1 k) _ (by simp [hx'])] at hN
        have h0l : l.find? (fun e => keyEqv fold e.1 k) = some e0 := by
          rw [List.find?_append] at h0
          cases hl : l.find? (fun e => keyEqv fold e.1 k) with
          | none =>
            rw [hl] at h0
            simp only [Option.none_or] at h0
            rw [List.find?_cons_of_neg
              (p := fun e : Key × V => keyEqv fold e.1 k) _
              (by simp [hx'])] at h0
            exact absurd h0 (by simp)
          | some e1 =>
            rw [hl] at h0
            simpa [Option.or] using h0
        rw [get_key_value_insert_other hx', ih3 k e0 eN h0l hN]

end UniCaseIndexMap

/-! ## The claims -/

/-- C1: for every adapter, any text `T` and any casing variant `T'` of `T`
(equal folded forms), a first insertion of `T` followed by `get` with `T'`
succeeds and designates an entry whose stored key is the original text `T`,
not `T'`; and `get`/`contains` are case-insensitive on every adapter state. -/
theorem claim_C1 {V : Type} (fold : String → String) (t t' : String)
    (hvar : fold t = fold t') (v : V)
    (m : UniCaseIndexMap V) (hm : m.contains_key fold ⟨t⟩ = false)
    (si : UniCaseIndexSet) (hsi : si.contains fold ⟨t⟩ = false)
    (sb : UniCaseBTreeSet) (hsb : sb.contains fold ⟨t⟩ = false)
    (mb : UniCaseBTreeMap V) (hmb : mb.contains_key fold ⟨t⟩ = false) :
    (((m.insert fold ⟨t⟩ v).2).get_key_value fold ⟨t'⟩ = some (⟨t⟩, v)
      ∧ ((m.insert fold ⟨t⟩ v).2).get fold ⟨t'⟩ = some v
      ∧ ((m.insert fold ⟨t⟩ v).2).contains_key fold ⟨t'⟩ = true)
    ∧ (((si.insert fold ⟨t⟩).2).get fold ⟨t'⟩ = some ⟨t⟩
      ∧ ((si.insert fold ⟨t⟩).2).contains fold ⟨t'⟩ = true)
    ∧ (((sb.insert fold ⟨t⟩).2).get fold ⟨t'⟩ = some ⟨t⟩
      ∧ ((sb.insert fold ⟨t⟩).2).contains fold ⟨t'⟩ = true)
    ∧ ((mb.insert fold ⟨t⟩ v).2).get_key_value fold ⟨t'⟩ = some (⟨t⟩, v)
    ∧ (∀ k k' : Key, fold k.text = fold k'.text →
        m.get fold k = m.get fold k'
          ∧ m.contains_key fold k = m.contains_key fold k'
          ∧ si.get fold k = si.get fold k'
          ∧ si.contains fold k = si.contains fold k'
          ∧ sb.get fold k = sb.get fold k'
          ∧ sb.contains fold k = sb.contains fold k') := by
  have hvar' : fold (Key.mk t').text = fold (Key.mk t).text := hvar.symm
  refine ⟨⟨?_, ?_, ?_⟩, ⟨?_, ?_⟩, ⟨?_, ?_⟩, ?_, ?_⟩
  · rw [UniCaseIndexMap.get_key_value_insert_self hvar' m,
      UniCaseIndexMap.imap_get_key_value_eq_none hm]
    rfl
  · rw [UniCaseIndexMap.get,
      UniCaseIndexMap.get_key_value_insert_self hvar' m,
      UniCaseIndexMap.imap_get_key_value_eq_none hm]
    rfl
  · rw [UniCaseIndexMap.imap_contains_key_eq_isSome,
      UniCaseIndexMap.get_key_value_insert_self hvar' m]
    rfl
  · exact UniCaseIndexSet.get_insert_of_absent hsi hvar'
  · rw [UniCaseIndexSet.iset_contains_eq_isSome,
      UniCaseIndexSet.get_insert_of_absent hsi hvar']
    rfl
  · exact (UniCaseBTreeSet.bset_insert_get_of_absent hsb hvar').2
  · rw [UniCaseBTreeSet.bset_contains_eq_isSome,
      (UniCaseBTreeSet.bset_insert_get_of_absent hsb hvar').2]
    rfl
  · exact (UniCaseBTreeMap.bmap_insert_get_of_absent hmb hvar').2
  · intro k k' hkk'
    refine ⟨?_, ?_, ?_, ?_, ?_, ?_⟩
    · rw [UniCaseIndexMap.get, UniCaseIndexMap.get,
        UniCaseIndexMap.imap_get_key_value_congr hkk']
    · exact UniCaseIndexMap.imap_contains_key_congr hkk' m
    · exact UniCaseIndexSet.iset_get_congr hkk' si
    · exact UniCaseIndexSet.iset_contains_congr hkk' si
    · exact UniCaseBTreeSet.bset_get_congr hkk' sb
    · exact UniCaseBTreeSet.bset_contains_congr hkk' sb

/-- Witness for C1: the spec's concrete scenario — insert
"Accept-Encoding" and look it up as "ACCEPT-ENCODING" under ASCII folding;
the stored key keeps the original casing. -/
theorem claim_C1_witness :
    ((UniCaseIndexMap.new.insert asciiFold ⟨"Accept-Encoding"⟩
        (1 : Nat)).2).get_key_value asciiFold ⟨"ACCEPT-ENCODING"⟩ =
      some (⟨"Accept-Encoding"⟩, 1) :=
  (claim_C1 asciiFold "Accept-Encoding" "ACCEPT-ENCODING" (by decide) 1
    UniCaseIndexMap.new (by decide) UniCaseIndexSet.new (by decide)
    UniCaseBTreeSet.new (by decide) UniCaseBTreeMap.new (by decide)).1.1

/-- C3: for every map adapter, inserting a key whose folded form is present
returns the previous value, replaces the value, and keeps the stored key's
original casing; inserting a key whose folded form is absent returns nothing
and stores the supplied key and value.  (`UniCaseIndexMap` is the map adapter
in the sources; the ordered map sibling is spec-modelled.) -/
theorem claim_C3 {V : Type} (fold : String → String) (m : UniCaseIndexMap V)
    (k k' : Key) (v v' : V) (hk' : fold k'.text = fold k.text)
    (mb : UniCaseBTreeMap V) (hmb : mb.contains_key fold k = false) :
    (∀ e0, m.get_key_value fold k = some e0 →
      (m.insert fold k v).1 = some e0.2
        ∧ ((m.insert fold k v).2).get_key_value fold k' = some (e0.1, v)
        ∧ (m.insert fold k v).2.keys = m.keys)
    ∧ (m.contains_key fold k = false →
        m.insert fold k v = (none, ⟨m.entries ++ [(k, v)]⟩))
    ∧ ((mb.insert fold k v).1 = none
        ∧ ((mb.insert fold k v).2).get_key_value fold k' = some (k, v))
    ∧ ((((mb.insert fold k v).2).insert fold k' v').1 = some v
        ∧ ((((mb.insert fold k v).2).insert fold k' v').2).get_key_value
            fold k = some (k, v')) := by
  refine ⟨?_, ?_, ?_, ?_⟩
  · intro e0 he0
    refine ⟨?_, ?_, ?_⟩
    · rw [UniCaseIndexMap.insert_fst, he0]
      rfl
    · rw [UniCaseIndexMap.get_key_value_insert_self hk' m, he0]
      rfl
    · refine UniCaseIndexMap.keys_insert_of_present ?_
      rw [UniCaseIndexMap.imap_contains_key_eq_isSome, he0]
      rfl
  · exact fun h => UniCaseIndexMap.insert_entries_of_absent h
  · exact UniCaseBTreeMap.bmap_insert_get_of_absent hmb hk'
  · exact UniCaseBTreeMap.insert_insert_of_absent hmb hk' rfl

/-- Witness for C3: the spec's scenario — insert "A" with 1, then "a" with
2; the old value 1 is returned, the stored key stays "A" and the value
becomes 2. -/
theorem claim_C3_witness :
    (((UniCaseIndexMap.new.insert asciiFold ⟨"A"⟩ (1 : Nat)).2).insert
        asciiFold ⟨"a"⟩ 2).1 = some 1
    ∧ ((((UniCaseIndexMap.new.insert asciiFold ⟨"A"⟩ (1 : Nat)).2).insert
        asciiFold ⟨"a"⟩ 2).2).get_key_value asciiFold ⟨"a"⟩ =
      some (⟨"A"⟩, 2) := by
  have h := claim_C3 asciiFold
    ((UniCaseIndexMap.new.insert asciiFold ⟨"A"⟩ (1 : Nat)).2)
    ⟨"a"⟩ ⟨"a"⟩ 2 0 (by decide) UniCaseBTreeMap.new (by decide)
  exact ⟨(h.1 (⟨"A"⟩, 1) (by decide)).1, (h.1 (⟨"A"⟩, 1) (by decide)).2.1⟩

/-- C10: on the insertion-ordered map, `remove_entry` of an absent key
returns nothing and leaves the map unchanged; of a present key it removes
the entry and returns the stored key — with the casing of its first
insertion, not the probe's casing — together with its value. -/
theorem claim_C10 {V : Type} (fold : String → String) (m : UniCaseIndexMap V)
    (k k' : Key) (v : V) :
    (m.contains_key fold k = false → m.remove_entry fold k = (none, m))
    ∧ (∀ e, m.get_key_value fold k = some e →
        (m.remove_entry fold k).1 = some e)
    ∧ (m.contains_key fold k = false → fold k'.text = fold k.text →
        ((m.insert fold k v).2).remove_entry fold k' = (some (k, v), m)) := by
  refine ⟨fun h => UniCaseIndexMap.remove_entry_of_absent h, ?_,
    fun h h' => UniCaseIndexMap.remove_entry_insert_of_absent h h'⟩
  intro e he
  unfold UniCaseIndexMap.remove_entry
  cases hidx : findEntryIdx fold k m.entries with
  | none =>
    have := findIdxP_eq_none_iff.mp hidx
    have hnone : m.get_key_value fold k = none := by
      simp only [UniCaseIndexMap.get_key_value, List.find?_eq_none]
      intro e' he'
      simp [this e' he']
    rw [hnone] at he
    exact absurd he (by simp)
  | some i =>
    obtain ⟨a, ha1, ha2⟩ := findIdxP_some hidx
    have : a = e := by
      rw [UniCaseIndexMap.get_key_value] at he
      rw [he] at ha2
      exact (Option.some.inj ha2).symm
    subst this
    simp [ha1]

/-- Witness for C10: inserting "A" with value 1 and calling `remove_entry`
with probe "a" returns the stored key "A" (original casing) with its value
and empties the map. -/
theorem claim_C10_witness :
    ((UniCaseIndexMap.new.insert asciiFold ⟨"A"⟩ (1 : Nat)).2).remove_entry
        asciiFold ⟨"a"⟩ = (some (⟨"A"⟩, 1), UniCaseIndexMap.new) :=
  (claim_C10 asciiFold UniCaseIndexMap.new ⟨"A"⟩ ⟨"a"⟩ 1).2.2
    (by decide) (by decide)

/-- C7: on every adapter, removing an absent key returns the "not found"
signal (`false` for sets, `none` for maps) and leaves the adapter unchanged;
after one insertion of an absent key, removing it twice — with any
fold-equal probe — answers "found" and then "not found". -/
theorem claim_C7 {V : Type} (fold : String → String) (k k' : Key) (v : V)
    (h' : fold k'.text = fold k.text)
    (m : UniCaseIndexMap V) (si : UniCaseIndexSet) (sb : UniCaseBTreeSet)
    (mb : UniCaseBTreeMap V) :
    (m.contains_key fold k = false → m.remove fold k = (none, m))
    ∧ (si.contains fold k = false → si.remove fold k = (false, si))
    ∧ (sb.contains fold k = false → sb.remove fold k = (false, sb))
    ∧ (mb.contains_key fold k = false → mb.remove fold k = (none, mb))
    ∧ (m.contains_key fold k = false →
        ((m.insert fold k v).2).remove fold k' = (some v, m)
          ∧ ((((m.insert fold k v).2).remove fold k').2).remove fold k' =
            (none, m))
    ∧ (si.contains fold k = false →
        ((si.insert fold k).2).remove fold k' = (true, si)
          ∧ ((((si.insert fold k).2).remove fold k').2).remove fold k' =
            (false, si))
    ∧ (sb.contains fold k = false →
        ((sb.insert fold k).2).remove fold k' = (true, sb)
          ∧ ((((sb.insert fold k).2).remove fold k').2).remove fold k' =
            (false, sb))
    ∧ (mb.contains_key fold k = false →
        ((mb.insert fold k v).2).remove fold k' = (some v, mb)
          ∧ ((((mb.insert fold k v).2).remove fold k').2).remove fold k' =
            (none, mb)) := by
  refine ⟨fun h => UniCaseIndexMap.imap_remove_of_absent h,
    fun h => UniCaseIndexSet.iset_remove_of_absent h,
    fun h => UniCaseBTreeSet.bset_remove_of_absent h,
    fun h => UniCaseBTreeMap.bmap_remove_of_absent h, ?_, ?_, ?_, ?_⟩
  · intro h
    have h1 : ((m.insert fold k v).2).remove fold k' = (some v, m) := by
      simp [UniCaseIndexMap.remove,
        UniCaseIndexMap.remove_entry_insert_of_absent h h']
    refine ⟨h1, ?_⟩
    rw [h1]
    refine UniCaseIndexMap.imap_remove_of_absent ?_
    rw [UniCaseIndexMap.imap_contains_key_congr h' m]
    exact h
  · intro h
    have h1 := UniCaseIndexSet.iset_remove_insert_of_absent h h'
    refine ⟨h1, ?_⟩
    rw [h1]
    refine UniCaseIndexSet.iset_remove_of_absent ?_
    rw [UniCaseIndexSet.iset_contains_congr h' si]
    exact h
  · intro h
    have h1 := UniCaseBTreeSet.bset_remove_insert_of_absent h h'
    refine ⟨h1, ?_⟩
    rw [h1]
    refine UniCaseBTreeSet.bset_remove_of_absent ?_
    rw [UniCaseBTreeSet.bset_contains_congr h' sb]
    exact h
  · intro h
    have h1 := UniCaseBTreeMap.bmap_remove_insert_of_absent (v := v) h h'
    refine ⟨h1, ?_⟩
    rw [h1]
    refine UniCaseBTreeMap.bmap_remove_of_absent ?_
    rw [UniCaseBTreeMap.bmap_contains_key_congr h' mb]
    exact h

/-- Witness for C7: on all four adapters, after inserting "A" into the empty
adapter, removing probe "a" twice answers found then not-found, and both
removals of an absent key are no-ops. -/
theorem claim_C7_witness :
    (UniCaseIndexMap.new.remove asciiFold ⟨"a"⟩ =
        (none, (UniCaseIndexMap.new : UniCaseIndexMap Nat)))
    ∧ (((UniCaseIndexMap.new.insert asciiFold ⟨"A"⟩ (1 : Nat)).2).remove
        asciiFold ⟨"a"⟩ = (some 1, UniCaseIndexMap.new))
    ∧ (((UniCaseBTreeSet.new.insert asciiFold ⟨"A"⟩).2).remove asciiFold
        ⟨"a"⟩ = (true, UniCaseBTreeSet.new))
    ∧ (((UniCaseIndexSet.new.insert asciiFold ⟨"A"⟩).2).remove asciiFold
        ⟨"a"⟩ = (true, UniCaseIndexSet.new)) := by
  have h := claim_C7 asciiFold ⟨"A"⟩ ⟨"a"⟩ (1 : Nat) (by decide)
    UniCaseIndexMap.new UniCaseIndexSet.new UniCaseBTreeSet.new
    UniCaseBTreeMap.new
  have h0 := claim_C7 asciiFold ⟨"a"⟩ ⟨"a"⟩ (1 : Nat) (by decide)
    (UniCaseIndexMap.new : UniCaseIndexMap Nat) UniCaseIndexSet.new
    UniCaseBTreeSet.new UniCaseBTreeMap.new
  exact ⟨h0.1 (by decide), (h.2.2.2.2.1 (by decide)).1,
    (h.2.2.2.2.2.2.1 (by decide)).1, (h.2.2.2.2.2.1 (by decide)).1⟩

/-- C5: on the insertion-ordered map, indexed access by key returns the value
when a fold-equal key is present and is a hard failure (modelled as
`Except.error`) when it is absent, while `get` on the same absent key returns
the explicit `none` and never fails. -/
theorem claim_C5 {V : Type} (fold : String → String) (m : UniCaseIndexMap V)
    (k : Key) :
    (∀ v, m.get fold k = some v → m.index fold k = Except.ok v)
    ∧ (m.contains_key fold k = false →
        m.index fold k = Except.error "key not found"
          ∧ m.get fold k = none) := by
  constructor
  · intro v hv
    simp [UniCaseIndexMap.index, hv]
  · intro h
    have hg : m.get fold k = none := by
      rw [UniCaseIndexMap.get, UniCaseIndexMap.imap_get_key_value_eq_none h]
      rfl
    exact ⟨by simp [UniCaseIndexMap.index, hg], hg⟩

/-- Witness for C5: on the map {"A" ↦ 1}, indexed access with "a" yields 1,
and indexed access with "B" is the hard failure while `get` returns none. -/
theorem claim_C5_witness :
    (((UniCaseIndexMap.new.insert asciiFold ⟨"A"⟩ (1 : Nat)).2).index
        asciiFold ⟨"a"⟩ = Except.ok 1)
    ∧ (((UniCaseIndexMap.new.insert asciiFold ⟨"A"⟩ (1 : Nat)).2).index
        asciiFold ⟨"B"⟩ = Except.error "key not found")
    ∧ (((UniCaseIndexMap.new.insert asciiFold ⟨"A"⟩ (1 : Nat)).2).get
        asciiFold ⟨"B"⟩ = none) := by
  have h1 := (claim_C5 asciiFold
    ((UniCaseIndexMap.new.insert asciiFold ⟨"A"⟩ (1 : Nat)).2) ⟨"a"⟩).1
    1 (by decide)
  have h2 := (claim_C5 asciiFold
    ((UniCaseIndexMap.new.insert asciiFold ⟨"A"⟩ (1 : Nat)).2) ⟨"B"⟩).2
    (by decide)
  exact ⟨h1, h2.1, h2.2⟩

/-- C9: `insert`, `remove`, `retain`, `contains` and `get` are total on every
adapter: any input text — the empty string included — is a valid key; an
inserted key is contained, and the empty string can be inserted, found by
`get`, and removed again on every adapter. -/
theorem claim_C9 {V : Type} (fold : String → String) (s : String) (v : V)
    (m : UniCaseIndexMap V) (si : UniCaseIndexSet) (sb : UniCaseBTreeSet)
    (mb : UniCaseBTreeMap V) :
    (((m.insert fold ⟨s⟩ v).2).contains_key fold ⟨s⟩ = true)
    ∧ (((si.insert fold ⟨s⟩).2).contains fold ⟨s⟩ = true)
    ∧ (((sb.insert fold ⟨s⟩).2).contains fold ⟨s⟩ = true)
    ∧ (((mb.insert fold ⟨s⟩ v).2).contains_key fold ⟨s⟩ = true)
    ∧ ((UniCaseIndexMap.new.insert fold ⟨""⟩ v).2.get fold ⟨""⟩ = some v)
    ∧ ((UniCaseIndexMap.new.insert fold ⟨""⟩ v).2.remove fold ⟨""⟩ =
        (some v, UniCaseIndexMap.new))
    ∧ ((UniCaseIndexSet.new.insert fold ⟨""⟩).2.get fold ⟨""⟩ = some ⟨""⟩)
    ∧ ((UniCaseIndexSet.new.insert fold ⟨""⟩).2.remove fold ⟨""⟩ =
        (true, UniCaseIndexSet.new))
    ∧ ((UniCaseBTreeSet.new.insert fold ⟨""⟩).2.get fold ⟨""⟩ = some ⟨""⟩)
    ∧ ((UniCaseBTreeSet.new.insert fold ⟨""⟩).2.remove fold ⟨""⟩ =
        (true, UniCaseBTreeSet.new)) := by
  refine ⟨UniCaseIndexMap.imap_contains_insert_self fold m ⟨s⟩ v,
    UniCaseIndexSet.iset_contains_insert_self fold si ⟨s⟩,
    UniCaseBTreeSet.bset_contains_insert_self fold sb ⟨s⟩,
    UniCaseBTreeMap.bmap_contains_insert_self fold mb ⟨s⟩ v, ?_, ?_, ?_, ?_, ?_, ?_⟩
  · have habs : (UniCaseIndexMap.new : UniCaseIndexMap V).contains_key fold
        ⟨""⟩ = false := rfl
    rw [UniCaseIndexMap.get,
      UniCaseIndexMap.get_key_value_insert_self rfl UniCaseIndexMap.new,
      UniCaseIndexMap.imap_get_key_value_eq_none habs]
    rfl
  · have habs : (UniCaseIndexMap.new : UniCaseIndexMap V).contains_key fold
        ⟨""⟩ = false := rfl
    simp [UniCaseIndexMap.remove,
      UniCaseIndexMap.remove_entry_insert_of_absent habs rfl]
  · have habs : UniCaseIndexSet.new.contains fold ⟨""⟩ = false := rfl
    exact UniCaseIndexSet.get_insert_of_absent habs rfl
  · have habs : UniCaseIndexSet.new.contains fold ⟨""⟩ = false := rfl
    exact UniCaseIndexSet.iset_remove_insert_of_absent habs rfl
  · have habs : UniCaseBTreeSet.new.contains fold ⟨""⟩ = false := rfl
    exact (UniCaseBTreeSet.bset_insert_get_of_absent habs rfl).2
  · have habs : UniCaseBTreeSet.new.contains fold ⟨""⟩ = false := rfl
    exact UniCaseBTreeSet.bset_remove_insert_of_absent habs rfl

/-- C4: for every two adapters of the same kind, equality holds iff the
cardinalities agree and every entry of the left one is found in the right one
by canonical (folded) key — with an equal value for maps; consequently
equality is independent of insertion order and of the stored keys' casing,
as in the spec's example {"A":1,"B":2,"C":3} vs reversed {"c":3,"b":2,"a":1}. -/
theorem claim_C4 (V : Type) [DecidableEq V] (fold : String → String) :
    (∀ m1 m2 : UniCaseIndexMap V,
      UniCaseIndexMap.eqAdapter fold m1 m2 = true ↔
        (m1.len = m2.len ∧ ∀ e ∈ m1.entries, m2.get fold e.1 = some e.2))
    ∧ (∀ s1 s2 : UniCaseIndexSet,
      UniCaseIndexSet.eqAdapter fold s1 s2 = true ↔
        (s1.len = s2.len ∧ ∀ k ∈ s1.entries, s2.contains fold k = true))
    ∧ (∀ s1 s2 : UniCaseBTreeSet,
      UniCaseBTreeSet.eqAdapter fold s1 s2 = true ↔
        (s1.len = s2.len ∧ ∀ k ∈ s1.entries, s2.contains fold k = true))
    ∧ (∀ m1 m2 : UniCaseBTreeMap V,
      UniCaseBTreeMap.eqAdapter fold m1 m2 = true ↔
        (m1.len = m2.len ∧ ∀ e ∈ m1.entries, m2.get fold e.1 = some e.2))
    ∧ (UniCaseIndexMap.eqAdapter asciiFold
        (UniCaseIndexMap.from_iter asciiFold
          [(⟨"A"⟩, (1 : Nat)), (⟨"B"⟩, 2), (⟨"C"⟩, 3)])
        (UniCaseIndexMap.from_iter asciiFold
          [(⟨"c"⟩, 3), (⟨"b"⟩, 2), (⟨"a"⟩, 1)]) = true) := by
  refine ⟨?_, ?_, ?_, ?_, by decide⟩
  · intro m1 m2
    simp [UniCaseIndexMap.eqAdapter, List.all_eq_true]
  · intro s1 s2
    simp [UniCaseIndexSet.eqAdapter, List.all_eq_true]
  · intro s1 s2
    simp [UniCaseBTreeSet.eqAdapter, List.all_eq_true]
  · intro m1 m2
    simp [UniCaseBTreeMap.eqAdapter, List.all_eq_true]

/-- Witness for C4: the one-entry maps {"A" ↦ 1} and {"a" ↦ 1} are equal,
concluded through the characterization. -/
theorem claim_C4_witness :
    UniCaseIndexMap.eqAdapter asciiFold
      (UniCaseIndexMap.from_iter asciiFold [(⟨"A"⟩, (1 : Nat))])
      (UniCaseIndexMap.from_iter asciiFold [(⟨"a"⟩, 1)]) = true :=
  ((claim_C4 Nat asciiFold).1
    (UniCaseIndexMap.from_iter asciiFold [(⟨"A"⟩, (1 : Nat))])
    (UniCaseIndexMap.from_iter asciiFold [(⟨"a"⟩, 1)])).mpr
    ⟨by decide, by decide⟩

/-- C8: every adapter operation (`insert`, `remove`/`remove_entry`,
`retain`, `extend`, `entry`, `clear`) preserves the invariant that at most
one entry exists per distinct case-folded key form.  For the index adapters
the invariant is `Distinct`; for the B-tree adapters the backing container's
strict key ordering `SortedEntries` is preserved and implies `Distinct`. -/
theorem claim_C8 {V : Type} (fold : String → String)
    (m : UniCaseIndexMap V) (hm : UniCaseIndexMap.Distinct fold m)
    (si : UniCaseIndexSet) (hsi : UniCaseIndexSet.Distinct fold si)
    (sb : UniCaseBTreeSet) (hsb : UniCaseBTreeSet.SortedEntries fold sb)
    (mb : UniCaseBTreeMap V) (hmb : UniCaseBTreeMap.SortedEntries fold mb)
    (k : Key) (v : V) (p : Key → V → Bool) (q : Key → Bool)
    (l : List (Key × V)) (ls : List Key) :
    (UniCaseIndexMap.Distinct fold (m.insert fold k v).2
      ∧ UniCaseIndexMap.Distinct fold (m.remove fold k).2
      ∧ UniCaseIndexMap.Distinct fold (m.remove_entry fold k).2
      ∧ UniCaseIndexMap.Distinct fold (m.retain p)
      ∧ UniCaseIndexMap.Distinct fold (m.extend fold l)
      ∧ UniCaseIndexMap.Distinct fold (m.entry_or_insert fold k v)
      ∧ UniCaseIndexMap.Distinct fold m.clear)
    ∧ (UniCaseIndexSet.Distinct fold (si.insert fold k).2
      ∧ UniCaseIndexSet.Distinct fold (si.remove fold k).2
      ∧ UniCaseIndexSet.Distinct fold (si.retain q)
      ∧ UniCaseIndexSet.Distinct fold (si.extend fold ls)
      ∧ UniCaseIndexSet.Distinct fold si.clear)
    ∧ (UniCaseBTreeSet.Distinct fold sb
      ∧ UniCaseBTreeSet.SortedEntries fold (sb.insert fold k).2
      ∧ UniCaseBTreeSet.Distinct fold (sb.insert fold k).2
      ∧ UniCaseBTreeSet.SortedEntries fold (sb.remove fold k).2
      ∧ UniCaseBTreeSet.Distinct fold (sb.remove fold k).2
      ∧ UniCaseBTreeSet.SortedEntries fold (sb.retain q)
      ∧ UniCaseBTreeSet.Distinct fold (sb.retain q)
      ∧ UniCaseBTreeSet.SortedEntries fold (sb.extend fold ls)
      ∧ UniCaseBTreeSet.Distinct fold (sb.extend fold ls)
      ∧ UniCaseBTreeSet.SortedEntries fold sb.clear)
    ∧ (UniCaseBTreeMap.Distinct fold mb
      ∧ UniCaseBTreeMap.SortedEntries fold (mb.insert fold k v).2
      ∧ UniCaseBTreeMap.Distinct fold (mb.insert fold k v).2
      ∧ UniCaseBTreeMap.SortedEntries fold (mb.remove fold k).2
      ∧ UniCaseBTreeMap.Distinct fold (mb.remove fold k).2
      ∧ UniCaseBTreeMap.SortedEntries fold (mb.retain p)
      ∧ UniCaseBTreeMap.Distinct fold (mb.retain p)) := by
  refine ⟨⟨UniCaseIndexMap.imap_distinct_insert hm,
      UniCaseIndexMap.imap_distinct_remove hm,
      UniCaseIndexMap.distinct_remove_entry hm,
      UniCaseIndexMap.imap_distinct_retain p hm,
      UniCaseIndexMap.imap_distinct_extend l hm,
      UniCaseIndexMap.distinct_entry_or_insert hm,
      UniCaseIndexMap.imap_distinct_clear m⟩,
    ⟨UniCaseIndexSet.iset_distinct_insert hsi,
      UniCaseIndexSet.iset_distinct_remove hsi,
      UniCaseIndexSet.iset_distinct_retain q hsi,
      UniCaseIndexSet.iset_distinct_extend ls hsi,
      UniCaseIndexSet.iset_distinct_clear si⟩,
    ⟨UniCaseBTreeSet.bset_distinct_of_sorted hsb,
      UniCaseBTreeSet.bset_sorted_insert hsb,
      UniCaseBTreeSet.bset_distinct_of_sorted (UniCaseBTreeSet.bset_sorted_insert hsb),
      UniCaseBTreeSet.bset_sorted_remove hsb,
      UniCaseBTreeSet.bset_distinct_of_sorted (UniCaseBTreeSet.bset_sorted_remove hsb),
      UniCaseBTreeSet.bset_sorted_retain q hsb,
      UniCaseBTreeSet.bset_distinct_of_sorted (UniCaseBTreeSet.bset_sorted_retain q hsb),
      UniCaseBTreeSet.sorted_extend ls hsb,
      UniCaseBTreeSet.bset_distinct_of_sorted (UniCaseBTreeSet.sorted_extend ls hsb),
      UniCaseBTreeSet.sorted_clear sb⟩,
    ⟨UniCaseBTreeMap.bmap_distinct_of_sorted hmb,
      UniCaseBTreeMap.bmap_sorted_insert hmb,
      UniCaseBTreeMap.bmap_distinct_of_sorted (UniCaseBTreeMap.bmap_sorted_insert hmb),
      UniCaseBTreeMap.bmap_sorted_remove hmb,
      UniCaseBTreeMap.bmap_distinct_of_sorted (UniCaseBTreeMap.bmap_sorted_remove hmb),
      UniCaseBTreeMap.bmap_sorted_retain p hmb,
      UniCaseBTreeMap.bmap_distinct_of_sorted
        (UniCaseBTreeMap.bmap_sorted_retain p hmb)⟩⟩

/-- Witness for C8: on concrete two-entry adapter states satisfying the
invariants, inserting a differently-cased duplicate key keeps the folded
key forms distinct. -/
theorem claim_C8_witness :
    UniCaseIndexMap.Distinct asciiFold
      ((UniCaseIndexMap.mk [(⟨"A"⟩, (1 : Nat)), (⟨"b"⟩, 2)]).insert
        asciiFold ⟨"a"⟩ 3).2
    ∧ UniCaseBTreeSet.SortedEntries asciiFold
      ((UniCaseBTreeSet.mk [⟨"A"⟩]).insert asciiFold ⟨"a"⟩).2 := by
  have h := claim_C8 asciiFold
    (UniCaseIndexMap.mk [(⟨"A"⟩, (1 : Nat)), (⟨"b"⟩, 2)])
    (by unfold UniCaseIndexMap.Distinct; decide)
    UniCaseIndexSet.new (by unfold UniCaseIndexSet.Distinct; decide)
    (UniCaseBTreeSet.mk [⟨"A"⟩])
    (by unfold UniCaseBTreeSet.SortedEntries; decide)
    UniCaseBTreeMap.new (by unfold UniCaseBTreeMap.SortedEntries; decide)
    ⟨"a"⟩ 3 (fun _ _ => true) (fun _ => true) [] []
  exact ⟨h.1.1, h.2.2.1.2.1⟩

/-- C6: building a map adapter out of any (key, value) sequence
(`FromIterator` is `extend` from the empty map) yields a cardinality equal
to the number of distinct case-folded keys of the sequence; every folded key
occurring in the sequence is mapped to the value of its last occurrence
while the stored key carries the first occurrence's casing, and absent
folded keys are not found. -/
theorem claim_C6 {V : Type} (fold : String → String) (l : List (Key × V)) :
    (UniCaseIndexMap.from_iter fold l).len =
      ((l.map fun e => fold e.1.text).toFinset).card
    ∧ (∀ (k : Key) (e0 eN : Key × V),
        l.find? (fun e => keyEqv fold e.1 k) = some e0 →
        l.reverse.find? (fun e => keyEqv fold e.1 k) = some eN →
        (UniCaseIndexMap.from_iter fold l).get_key_value fold k =
          some (e0.1, eN.2))
    ∧ (∀ k : Key, l.find? (fun e => keyEqv fold e.1 k) = none →
        (UniCaseIndexMap.from_iter fold l).get_key_value fold k = none) := by
  obtain ⟨h1, h2, h3⟩ := @UniCaseIndexMap.from_iter_spec V fold l
  refine ⟨?_, h3, h2⟩
  have hd : UniCaseIndexMap.Distinct fold (UniCaseIndexMap.from_iter fold l) :=
    UniCaseIndexMap.imap_distinct_extend l List.nodup_nil
  have hlen : ((UniCaseIndexMap.from_iter fold l).entries.map
      fun e => fold e.1.text).toFinset.card =
      (UniCaseIndexMap.from_iter fold l).len := by
    rw [List.toFinset_card_of_nodup hd]
    simp [UniCaseIndexMap.len]
  rw [← hlen, h1]

/-- Witness for C6: the sequence [("A",1), ("B",2), ("a",3)] has two
distinct folded keys; the resulting map has cardinality 2 and folded key
"a" is stored with the first occurrence's casing "A" and the last
occurrence's value 3. -/
theorem claim_C6_witness :
    (UniCaseIndexMap.from_iter asciiFold
      [(⟨"A"⟩, (1 : Nat)), (⟨"B"⟩, 2), (⟨"a"⟩, 3)]).len = 2
    ∧ (UniCaseIndexMap.from_iter asciiFold
      [(⟨"A"⟩, (1 : Nat)), (⟨"B"⟩, 2), (⟨"a"⟩, 3)]).get_key_value asciiFold
      ⟨"A"⟩ = some (⟨"A"⟩, 3) := by
  have h := claim_C6 asciiFold [(⟨"A"⟩, (1 : Nat)), (⟨"B"⟩, 2), (⟨"a"⟩, 3)]
  refine ⟨?_, h.2.1 ⟨"A"⟩ (⟨"A"⟩, 1) (⟨"a"⟩, 3) (by decide) (by decide)⟩
  rw [h.1]
  decide

/-- Counterexample to C2 as stated: inserting A, B, C, D and removing B
leaves iteration order A, D, C — `IndexMap::remove` is a swap removal that
moves the last entry D into B's slot — which is not the first-insertion
order A, C, D of the currently present keys. -/
theorem claim_C2_counterexample :
    ((((((UniCaseIndexMap.new.insert asciiFold ⟨"A"⟩ (1 : Nat)).2.insert asciiFold ⟨"B"⟩ 2).2.insert asciiFold ⟨"C"⟩ 3).2.insert asciiFold ⟨"D"⟩ 4).2.remove asciiFold ⟨"B"⟩).2.keys.map Key.text =
      ["A", "D", "C"])
    ∧ ((((((UniCaseIndexMap.new.insert asciiFold ⟨"A"⟩ (1 : Nat)).2.insert asciiFold ⟨"B"⟩ 2).2.insert asciiFold ⟨"C"⟩ 3).2.insert asciiFold ⟨"D"⟩ 4).2.remove asciiFold ⟨"B"⟩).2.keys.map Key.text ≠
      ["A", "C", "D"]) := by
  constructor
  · decide
  · decide

/-- C2 amended: for the insertion-ordered adapters, inserting an absent key
appends it at the end, a value update keeps the key sequence unchanged, and
`retain` keeps the survivors in relative order, so iteration order equals
first-insertion order for remove-free histories; `remove` however is a swap
removal (the last entry moves into the removed slot), so the general
first-insertion-order property fails after removals — yet a
removed-then-reinserted key still lands at the end, and the spec's concrete
example insert A, B, C; remove B; reinsert B still yields A, C, B (B was
next-to-last, so the swap coincides with an order-preserving removal). -/
theorem claim_C2_amended {V : Type} (fold : String → String)
    (m : UniCaseIndexMap V) (k : Key) (v : V) (p : Key → V → Bool)
    (si : UniCaseIndexSet) (q : Key → Bool) :
    (m.contains_key fold k = false →
      (m.insert fold k v).2.entries = m.entries ++ [(k, v)])
    ∧ (m.contains_key fold k = true →
      (m.insert fold k v).2.keys = m.keys)
    ∧ List.Sublist (m.retain p).entries m.entries
    ∧ (si.contains fold k = false →
      (si.insert fold k).2.entries = si.entries ++ [k])
    ∧ List.Sublist (si.retain q).entries si.entries
    ∧ ((((((UniCaseIndexMap.new.insert asciiFold ⟨"A"⟩ (1 : Nat)).2.insert asciiFold ⟨"B"⟩ 2).2.insert asciiFold ⟨"C"⟩ 3).2.remove asciiFold ⟨"B"⟩).2.insert asciiFold ⟨"B"⟩ 2).2.keys.map Key.text =
      ["A", "C", "B"])
    ∧ ((((((UniCaseIndexSet.new.insert asciiFold ⟨"A"⟩).2.insert asciiFold ⟨"B"⟩).2.insert asciiFold ⟨"C"⟩).2.remove asciiFold ⟨"B"⟩).2.insert asciiFold ⟨"B"⟩).2.entries.map Key.text =
      ["A", "C", "B"]) := by
  refine ⟨?_, ?_, ?_, ?_, ?_, by decide, by decide⟩
  · intro h
    rw [UniCaseIndexMap.insert_entries_of_absent h]
  · exact fun h => UniCaseIndexMap.keys_insert_of_present h
  · exact List.filter_sublist m.entries
  · intro h
    rw [UniCaseIndexSet.insert_of_absent h]
  · exact List.filter_sublist si.entries

/-- Witness for C2 (amended): a fresh insertion into the empty map appends
its entry at the end. -/
theorem claim_C2_witness :
    (UniCaseIndexMap.new.insert asciiFold ⟨"X"⟩ (9 : Nat)).2.entries =
      UniCaseIndexMap.new.entries ++ [(⟨"X"⟩, 9)] :=
  (claim_C2_amended asciiFold UniCaseIndexMap.new ⟨"X"⟩ 9 (fun _ _ => true)
    UniCaseIndexSet.new (fun _ => true)).1 (by decide)

end UnicaseCollections
